import Mathlib

/-!
Shallow embedding of the Match3Connect4 game engine
(src/m3c4: board.rs, player.rs, action.rs, lib.rs, alphazero.rs and
examples/learn.rs), together with theorems checking the natural-language
specification against it.  Machine integers of the source (`isize`,
`usize`, `u8`, `u64`) are modelled as `ℤ`/`ℕ`; the quantities involved
(board coordinates, point counters, visit counts) never approach the
word size, so no wrap-around is modelled.  Floating point probabilities
(`f32`) are modelled as `ℚ`.  The unbounded `while` loops of the source
(`directional_stone_len`, `remove_stone`, the cascade loop in
`make_move`) are embedded with explicit fuel; the fuel chosen at each
call site dominates the loop bound of the source (runs and column
shifts live on an 8×8 board, and every scoring cascade pass strictly
decreases the number of stones, which is at most 64).
-/

set_option maxRecDepth 4000

namespace M3C4

/-- `Player` from src/m3c4/src/player.rs. -/
inductive Player where
  | Player1 : Player
  | Player2 : Player
deriving DecidableEq, Repr, Fintype

/-- `Player::next_player` from player.rs. -/
def Player.next_player : Player → Player
  | .Player1 => .Player2
  | .Player2 => .Player1

/-- `Coordinate` from src/m3c4/src/action.rs: a pair of `isize`. -/
abbrev Coordinate := ℤ × ℤ

/-- `Coordinate::x`. -/
def Coordinate.x (c : Coordinate) : ℤ := c.1

/-- `Coordinate::y`. -/
def Coordinate.y (c : Coordinate) : ℤ := c.2

/-- `Coordinate::is_contained` from action.rs: `a` inclusive, `b` exclusive,
componentwise. -/
def Coordinate.is_contained (c : Coordinate) (a b : ℤ × ℤ) : Prop :=
  (a.1 ≤ c.1 ∧ c.1 < b.1) ∧ (a.2 ≤ c.2 ∧ c.2 < b.2)

instance (c a b : ℤ × ℤ) : Decidable (Coordinate.is_contained c a b) := by
  unfold Coordinate.is_contained; infer_instance

/-- `Coordinate::offset` from action.rs, translated verbatim: note that the
source multiplies `offset.0` into BOTH components (`self.1 + offset.0 *
distance`), which is the defect recorded against claim C9. -/
def Coordinate.offset (c : Coordinate) (o : ℤ × ℤ) (distance : ℤ) : Coordinate :=
  (c.1 + o.1 * distance, c.2 + o.1 * distance)

/-- `BoardAction` from action.rs. -/
inductive BoardAction where
  | DropStone : Player → ℕ → BoardAction
  | SwitchStone : Coordinate → Coordinate → BoardAction
deriving DecidableEq

/-- `Cell` from src/src/board.rs. -/
inductive Cell where
  | Empty : Cell
  | Filled : Player → Cell
deriving DecidableEq, Repr

/-- `TerminalResult` from board.rs. -/
inductive TerminalResult where
  | None : TerminalResult
  | Win : Player → TerminalResult
  | Draw : TerminalResult
deriving DecidableEq, Repr

/-- `MoveResult` from board.rs. -/
inductive MoveResult where
  | Winner : Player → MoveResult
  | Draw : MoveResult
  | Three : Player → MoveResult
deriving DecidableEq, Repr

def WIDTH : ℕ := 8
def HEIGHT : ℕ := 8

/-- `Board` from board.rs: `[[Cell; HEIGHT]; WIDTH]`, column major
(`board[x][y]`).  Only indices below 8 are ever read through the public
operations. -/
structure Board where
  cells : ℕ → ℕ → Cell

/-- The all-Empty board (`Board::default`). -/
def Board.default : Board := ⟨fun _ _ => Cell.Empty⟩

/-- `Board::get` from board.rs: bounds-checked read, `Empty` outside the
`[0,WIDTH) × [0,HEIGHT)` rectangle. -/
def Board.get (b : Board) (c : Coordinate) : Cell :=
  if c.is_contained ((0 : ℤ), (0 : ℤ)) ((WIDTH : ℤ), (HEIGHT : ℤ)) then
    b.cells c.1.toNat c.2.toNat
  else Cell.Empty

/-- `Board::set` from board.rs: unchecked write `board[x as usize][y as usize]`.
All call sites of the source pass in-rectangle coordinates. -/
def Board.set (b : Board) (cell : Cell) (c : Coordinate) : Board :=
  ⟨fun x y => if x = c.1.toNat ∧ y = c.2.toNat then cell else b.cells x y⟩

/-- `Board::is_col_free` from board.rs. -/
def Board.is_col_free (b : Board) (col : ℕ) : Prop :=
  b.cells col (HEIGHT - 1) = Cell.Empty

instance (b : Board) (col : ℕ) : Decidable (b.is_col_free col) := by
  unfold Board.is_col_free; infer_instance

/-- The `while` loop of `directional_stone_len` from board.rs, with fuel.
It returns the list of consecutive coordinates holding `Filled player`
starting at `c` and stepping by `d`. -/
def runList (b : Board) (p : Player) (c : Coordinate) (d : ℤ × ℤ) : ℕ → List Coordinate
  | 0 => []
  | (fuel + 1) =>
    if b.get c = Cell.Filled p then c :: runList b p (c + d) d fuel else []

/-- Fuel used for `directional_stone_len`: a same-player run along any of the
axis directions used by the source occupies at most 8 cells of the 8×8 board,
so 9 steps of the loop always reach the terminating read. -/
def RUN_FUEL : ℕ := 9

/-- `directional_stone_len` from board.rs. -/
def directional_stone_len (b : Board) (p : Player) (c : Coordinate) (d : ℤ × ℤ) :
    List Coordinate :=
  runList b p c d RUN_FUEL

/-- `is_four_directional` from board.rs. -/
def is_four_directional (b : Board) (start : Coordinate) (o : ℤ × ℤ) : Option Player :=
  match b.get start with
  | Cell.Filled player =>
    let forward := (directional_stone_len b player start o).length
    let backward := (directional_stone_len b player (start - o) (-o.1, -o.2)).length
    if forward = 4 ∧ backward = 0 then some player else none
  | Cell.Empty => none

/-- The cell traversal order of the scanning loops of board.rs
(`for y in 0..HEIGHT { for x in 0..WIDTH { .. } }`). -/
def coordList : List Coordinate :=
  (List.range HEIGHT).flatMap fun (y : ℕ) =>
    (List.range WIDTH).map fun (x : ℕ) => ((x : ℤ), (y : ℤ))

/-- The four axis directions checked by `get_board_terminal_status`. -/
def dirs4 : List (ℤ × ℤ) := [(1, 0), (0, 1), (1, 1), (-1, 1)]

/-- Number of four-in-a-row starts counted for `p` by
`get_board_terminal_status` (the `player_1_four` / `player_2_four`
accumulators of board.rs). -/
def fourCount (b : Board) (p : Player) : ℕ :=
  (coordList.flatMap fun c => dirs4.map fun d => is_four_directional b c d).countP
    (· = some p)

/-- `Board::get_board_terminal_status` from board.rs. -/
def Board.get_board_terminal_status (b : Board) : TerminalResult :=
  let player_1_four := fourCount b Player.Player1
  let player_2_four := fourCount b Player.Player2
  if player_1_four > 0 ∧ player_2_four > 0 then TerminalResult.Draw
  else if player_1_four = 0 ∧ player_2_four = 0 then TerminalResult.None
  else if player_1_four > 0 ∧ player_2_four = 0 then TerminalResult.Win Player.Player1
  else TerminalResult.Win Player.Player2

/-- The `while` loop of `Board::remove_stone` from board.rs, with fuel: at
coordinate `c` (while still on the board) copy the cell above into `c`, then
step up.  Starting inside the board the loop runs at most 8 times, so fuel 9
always reaches the terminating bounds check. -/
def removeLoop (b : Board) (c : Coordinate) : ℕ → Board
  | 0 => b
  | (fuel + 1) =>
    if c.is_contained ((0 : ℤ), (0 : ℤ)) ((WIDTH : ℤ), (HEIGHT : ℤ)) then
      removeLoop (b.set (b.get (c + ((0 : ℤ), (1 : ℤ)))) c) (c + ((0 : ℤ), (1 : ℤ))) fuel
    else b

/-- `Board::remove_stone` from board.rs: blank the cell, then shift the column
above it down by one. -/
def Board.remove_stone (b : Board) (c : Coordinate) : Board :=
  removeLoop (b.set Cell.Empty c) c RUN_FUEL

/-- `HashSet::insert` of every element of `cs` into `s`, sets modelled as
duplicate-free lists. -/
def hsInsertAll (s : List Coordinate) (cs : List Coordinate) : List Coordinate :=
  cs.foldl (fun s c => if c ∈ s then s else s ++ [c]) s

/-- The `check_direction` closure of `find_points` from board.rs, acting on
(points, coords, per-direction already-counted set). -/
def check_direction (b : Board) (p : Player) (coord : Coordinate)
    (pcs : ℕ × List Coordinate × List Coordinate) (d : ℤ × ℤ) :
    ℕ × List Coordinate × List Coordinate :=
  if coord ∈ pcs.2.2 then pcs
  else
    let cells := directional_stone_len b p coord d
    if 3 ≤ cells.length ∧ cells.length ≠ 4 then
      (pcs.1 + 1, hsInsertAll pcs.2.1 cells, hsInsertAll pcs.2.2 cells)
    else pcs

/-- State threaded through the scanning loop of `find_points`. -/
structure FPState where
  points : ℕ
  coords : List Coordinate
  up_set : List Coordinate
  up_right_set : List Coordinate
  right_set : List Coordinate
  down_right_set : List Coordinate

/-- One iteration of the cell loop of `find_points`: the four
`check_direction` calls in source order (up, up-right, right, down-right),
each with its own set. -/
def fpStep (b : Board) (p : Player) (st : FPState) (coord : Coordinate) : FPState :=
  let r1 := check_direction b p coord (st.points, st.coords, st.up_set) (0, 1)
  let r2 := check_direction b p coord (r1.1, r1.2.1, st.up_right_set) (1, 1)
  let r3 := check_direction b p coord (r2.1, r2.2.1, st.right_set) (1, 0)
  let r4 := check_direction b p coord (r3.1, r3.2.1, st.down_right_set) (1, -1)
  { points := r4.1, coords := r4.2.1, up_set := r1.2.2, up_right_set := r2.2.2,
    right_set := r3.2.2, down_right_set := r4.2.2 }

/-- `find_points` from board.rs: the number of (≥3 and ≠4)-length segments for
`p`, and the set of their cells. -/
def find_points (b : Board) (p : Player) : ℕ × List Coordinate :=
  let st := coordList.foldl (fpStep b p) ⟨0, [], [], [], [], []⟩
  (st.points, st.coords)

/-- `HashSet::union` of duplicate-free lists. -/
def hsUnion (s1 s2 : List Coordinate) : List Coordinate :=
  s1 ++ s2.filter (fun c => c ∉ s1)

/-- The comparison realising `sort_by_key(|&c| (Reverse(c.y()), c.x()))` of
board.rs: descending `y`, then ascending `x`. -/
def removeLE (c1 c2 : Coordinate) : Bool :=
  decide (c2.2 < c1.2) || (decide (c1.2 = c2.2) && decide (c1.1 ≤ c2.1))

/-- `removeLE` as a relation. -/
def removeLErel (c1 c2 : Coordinate) : Prop := removeLE c1 c2 = true

instance : DecidableRel removeLErel := fun c1 c2 => by
  unfold removeLErel; infer_instance

instance : IsTrans Coordinate removeLErel where
  trans := by
    intro a b c
    simp only [removeLErel, removeLE, Bool.or_eq_true, Bool.and_eq_true,
      decide_eq_true_eq]
    omega

instance : IsTotal Coordinate removeLErel where
  total := by
    intro a b
    simp only [removeLErel, removeLE, Bool.or_eq_true, Bool.and_eq_true,
      decide_eq_true_eq]
    omega

/-- The sorted removal list (`total`) of one cascade pass of
`Board::make_move`.  The source's `sort_by_key` is a stable sort, and the key
`(Reverse(y), x)` is injective on coordinates, so its output is the unique
list sorted by `removeLE`; it is realised here by insertion sort, which is
structurally recursive (hence computable inside proofs) and produces that
same unique list. -/
def passRemovals (b : Board) : List Coordinate :=
  List.insertionSort removeLErel
    (hsUnion (find_points b Player.Player1).2 (find_points b Player.Player2).2)

/-- The resolution `loop` of `Board::make_move` from board.rs, with fuel:
check the terminal status (returning at once on Win/Draw), otherwise score
both players' segments, remove the union of their cells in sorted order, and
repeat unless nothing was found. -/
def cascade (b : Board) (acc : List MoveResult) : ℕ → List MoveResult × Board
  | 0 => (acc, b)
  | (fuel + 1) =>
    match b.get_board_terminal_status with
    | TerminalResult.Win p => (acc ++ [MoveResult.Winner p], b)
    | TerminalResult.Draw => (acc ++ [MoveResult.Draw], b)
    | TerminalResult.None =>
      let p1 := (find_points b Player.Player1).1
      let p2 := (find_points b Player.Player2).1
      let acc2 := acc ++ List.replicate p1 (MoveResult.Three Player.Player1)
        ++ List.replicate p2 (MoveResult.Three Player.Player2)
      let b2 := (passRemovals b).foldl Board.remove_stone b
      if p1 = 0 ∧ p2 = 0 then (acc2, b2) else cascade b2 acc2 fuel

/-- Fuel for the cascade loop: every scoring pass removes at least one stone
from a board of at most 64 stones, so 66 iterations dominate any run of the
source loop. -/
def CASCADE_FUEL : ℕ := 66

/-- The board-mutation step of `Board::make_move`: a drop fills the lowest
`Empty` cell of the column (the source asserts the column is not full), a
switch exchanges the two addressed cells unconditionally. -/
def applyAction (b : Board) (m : BoardAction) : Board :=
  match m with
  | BoardAction.DropStone player col =>
    match (List.range HEIGHT).find? (fun y => b.cells col y = Cell.Empty) with
    | some y => b.set (Cell.Filled player) ((col : ℤ), (y : ℤ))
    | none => b
  | BoardAction.SwitchStone a bb =>
    let stone_a := b.get a
    let stone_b := b.get bb
    (b.set stone_a bb).set stone_b a

/-- `Board::make_move` from board.rs: mutate, then run the cascade. -/
def Board.make_move (b : Board) (m : BoardAction) : List MoveResult × Board :=
  cascade (applyAction b m) [] CASCADE_FUEL

/-- `BoardState` from src/m3c4/src/lib.rs. -/
structure BoardState where
  board : Board
  player_1_points : ℕ
  player_2_points : ℕ
  current_player : Player
  winner : TerminalResult

/-- `BoardState::default`: empty board, zero points, Player1 to move. -/
def BoardState.default : BoardState :=
  ⟨Board.default, 0, 0, Player.Player1, TerminalResult.None⟩

/-- The mover's point counter. -/
def BoardState.mover_points (s : BoardState) : ℕ :=
  match s.current_player with
  | Player.Player1 => s.player_1_points
  | Player.Player2 => s.player_2_points

/-- The `match (next_cell, base_cell)` of `available_moves` in lib.rs: true
exactly when both cells are filled by different players. -/
def switchable (b : Board) (base next : Coordinate) : Bool :=
  match b.get next, b.get base with
  | Cell.Filled Player.Player1, Cell.Filled Player.Player2 => true
  | Cell.Filled Player.Player2, Cell.Filled Player.Player1 => true
  | _, _ => false

/-- One switch-collection loop of `available_moves` from lib.rs.  Both the
horizontal (`d = (1,0)`) and the vertical (`d = (0,1)`) loop of the source
iterate `x` over `0..(WIDTH-1)` and `y` over `0..HEIGHT`. -/
def switchList (b : Board) (d : ℤ × ℤ) : List BoardAction :=
  (List.range (WIDTH - 1)).flatMap fun (x : ℕ) =>
    (List.range HEIGHT).filterMap fun (y : ℕ) =>
      let base : Coordinate := ((x : ℤ), (y : ℤ))
      let next := base + d
      if switchable b base next then some (BoardAction.SwitchStone base next) else none

/-- The drop-action collection of `available_moves`: one `DropStone` for the
mover per non-full column, in column order. -/
def dropActions (s : BoardState) : List BoardAction :=
  ((List.range WIDTH).filter fun col => s.board.is_col_free col).map
    fun col => BoardAction.DropStone s.current_player col

/-- "Both cells are `Filled` by different players": the spec-side reading of
`switchable`. -/
def oppFilled (b : Board) (base next : Coordinate) : Prop :=
  ∃ p q : Player, p ≠ q ∧ b.get base = Cell.Filled p ∧ b.get next = Cell.Filled q

/-- `BoardState::available_moves` from lib.rs. -/
def BoardState.available_moves (s : BoardState) : List BoardAction :=
  match s.board.get_board_terminal_status with
  | TerminalResult.Win _ => []
  | TerminalResult.Draw => []
  | TerminalResult.None =>
    let find_switch_actions : Bool :=
      match s.current_player with
      | Player.Player1 => decide (s.player_1_points > 0)
      | Player.Player2 => decide (s.player_2_points > 0)
    if find_switch_actions then
      dropActions s ++ switchList s.board (1, 0) ++ switchList s.board (0, 1)
    else dropActions s

/-- `BoardState::make_move` from lib.rs. -/
def BoardState.make_move (s : BoardState) (m : BoardAction) : BoardState :=
  let pts :=
    match m with
    | BoardAction.SwitchStone _ _ =>
      match s.current_player with
      | Player.Player1 => (s.player_1_points - 1, s.player_2_points)
      | Player.Player2 => (s.player_1_points, s.player_2_points - 1)
    | _ => (s.player_1_points, s.player_2_points)
  let result := s.board.make_move m
  let three_p1 := result.1.count (MoveResult.Three Player.Player1)
  let three_p2 := result.1.count (MoveResult.Three Player.Player2)
  { board := result.2
    player_1_points := pts.1 + three_p1
    player_2_points := pts.2 + three_p2
    current_player := s.current_player.next_player
    winner :=
      match result.1.getLast? with
      | some MoveResult.Draw => TerminalResult.Draw
      | some (MoveResult.Winner p) => TerminalResult.Win p
      | _ => TerminalResult.None }

/-- `BoardState::get_winner` from lib.rs. -/
def BoardState.get_winner (s : BoardState) : Option Player :=
  match s.winner with
  | TerminalResult.None =>
    match s.board.get_board_terminal_status with
    | TerminalResult.None => none
    | TerminalResult.Win p => some p
    | TerminalResult.Draw => none
  | TerminalResult.Win p => some p
  | TerminalResult.Draw => none

/-- `BoardState::is_terminal` from lib.rs. -/
def BoardState.is_terminal (s : BoardState) : Prop :=
  s.available_moves = []

/-- `impl Into<Tensor<u8>> for BoardState` from lib.rs: four 8×8 planes,
`plane[x][y]`: mover stones, opponent stones, Player1's points broadcast,
Player2's points broadcast.  The point planes go through the source's
wrapping `as u8` cast (`self.player_1_points as u8`), modelled as `% 256`. -/
def state_to_input (s : BoardState) : List (List (List ℕ)) :=
  let player := s.current_player
  let next_player := player.next_player
  let cross_plane := (List.range WIDTH).map fun (x : ℕ) => (List.range HEIGHT).map fun (y : ℕ) =>
    match s.board.get ((x : ℤ), (y : ℤ)) with
    | Cell.Filled p => if p = player then 1 else 0
    | Cell.Empty => 0
  let circle_plane := (List.range WIDTH).map fun (x : ℕ) => (List.range HEIGHT).map fun (y : ℕ) =>
    match s.board.get ((x : ℤ), (y : ℤ)) with
    | Cell.Filled p => if p = next_player then 1 else 0
    | Cell.Empty => 0
  let real_p1_plane := (List.range WIDTH).map fun _ => (List.range HEIGHT).map fun _ =>
    s.player_1_points % 256
  let real_p2_plane := (List.range WIDTH).map fun _ => (List.range HEIGHT).map fun _ =>
    s.player_2_points % 256
  [cross_plane, circle_plane, real_p1_plane, real_p2_plane]

/-- Read entry `(i, x, y)` of a nested-list tensor. -/
def tensor_entry (t : List (List (List ℕ))) (i x y : ℕ) : ℕ :=
  ((t.getD i []).getD x []).getD y 0

/-- A 3×8×8 policy tensor (`tensorflow::Tensor<f32>` of alphazero.rs),
modelled as a total map from index triples to exact rationals, zero
initialised as `Tensor::new` is. -/
def Policy := ℕ × ℕ × ℕ → ℚ

/-- The index computation shared by `moves_to_tensorflow` and
`moves_to_evaluation` of src/src/alphazero.rs: plane 0 at `(col, 0)` for a
drop, plane 1 at `(x, min y)` for a same-column switch, plane 2 at
`(min x, y)` for a same-row switch; any other move is `unreachable!()` in the
source, modelled as `none`. -/
def move_index (m : BoardAction) : Option (ℕ × ℕ × ℕ) :=
  match m with
  | BoardAction.DropStone _ col => some (0, col, 0)
  | BoardAction.SwitchStone a b =>
    if a.1 = b.1 then some (1, a.1.toNat, (min a.2 b.2).toNat)
    else if a.2 = b.2 then some (2, (min a.1 b.1).toNat, a.2.toNat)
    else none

/-- `Tensor::set`. -/
def policyWrite (t : Policy) (idx : ℕ × ℕ × ℕ) (v : ℚ) : Policy :=
  fun i => if i = idx then v else t i

/-- The `parent_visits` sum of `moves_to_tensorflow`. -/
def visitsTotal (moves : List (BoardAction × ℕ)) : ℕ :=
  (moves.map fun mv => mv.2).sum

/-- The `for m in moves` write loop of `moves_to_tensorflow`: each move sets
`visits / parent_visits` at its index. -/
def policyFold (parent_visits : ℕ) (t : Policy) (l : List (BoardAction × ℕ)) : Policy :=
  l.foldl
    (fun t mv =>
      match move_index mv.1 with
      | some idx => policyWrite t idx ((mv.2 : ℚ) / (parent_visits : ℚ))
      | none => t)
    t

/-- `moves_to_tensorflow` from alphazero.rs, over (move, visit count) pairs:
`none` models the `panic!` on zero total visits; otherwise each move writes
`visits / total` at its index into the zero tensor. -/
def moves_to_tensorflow (moves : List (BoardAction × ℕ)) : Option Policy :=
  let parent_visits := visitsTotal moves
  if parent_visits = 0 then none
  else some (policyFold parent_visits (fun _ => 0) moves)

/-- `moves_to_evaluation` from alphazero.rs: read each candidate move's
probability back out of a policy tensor. -/
def moves_to_evaluation (moves : List BoardAction) (policy : Policy) : List ℚ :=
  moves.map fun m =>
    match move_index m with
    | some idx => policy idx
    | none => 0

/-- `GameResult` from src/m3c4/examples/learn.rs: the per-ply history of one
self-play game plus the final winner. -/
structure GameResult where
  histories : List (BoardState × Policy)
  winner : Option Player

/-- The `output_value` computation of the aggregation loop in learn.rs
(`match (s.current_player(), &result.winner)`), for one game. -/
def output_value (r : GameResult) : List ℤ :=
  r.histories.map fun h =>
    match h.1.current_player, r.winner with
    | Player.Player1, some Player.Player1 => 1
    | Player.Player1, some Player.Player2 => -1
    | Player.Player2, some Player.Player1 => -1
    | Player.Player2, some Player.Player2 => 1
    | _, none => 0

/-- The `inputs` aggregation of learn.rs: one encoded input per recorded
ply, concatenated over all games. -/
def aggregate_inputs (rs : List GameResult) : List (List (List (List ℕ))) :=
  rs.flatMap fun r => r.histories.map fun h => state_to_input h.1

/-- The `output_policy` aggregation of learn.rs: one policy target per
recorded ply, concatenated over all games. -/
def aggregate_policies (rs : List GameResult) : List Policy :=
  rs.flatMap fun r => r.histories.map fun h => h.2

/-- The `output_value` aggregation of learn.rs over all games. -/
def aggregate_values (rs : List GameResult) : List ℤ :=
  rs.flatMap output_value

/-- Terminal events among `MoveResult`s. -/
def isTerminalEv : MoveResult → Bool
  | MoveResult.Winner _ => true
  | MoveResult.Draw => true
  | MoveResult.Three _ => false

/-- Event lists producible by the cascade loop: a sequence of scoring
passes — each all of its `Three(Player1)` events before all of its
`Three(Player2)` events — optionally terminated by a single `Winner` or
`Draw` event. -/
inductive PassShape : List MoveResult → Prop where
  | nil : PassShape []
  | winner (p : Player) : PassShape [MoveResult.Winner p]
  | draw : PassShape [MoveResult.Draw]
  | pass (a b : ℕ) (rest : List MoveResult) : PassShape rest →
      PassShape (List.replicate a (MoveResult.Three Player.Player1)
        ++ List.replicate b (MoveResult.Three Player.Player2) ++ rest)

/-- Board with `Filled Player1` at (7,0) and `Filled Player2` at (7,1):
a vertically adjacent opposite-player pair in the last column. -/
def exBoardC2 : Board :=
  ⟨fun x y =>
    if x = 7 ∧ y = 0 then Cell.Filled Player.Player1
    else if x = 7 ∧ y = 1 then Cell.Filled Player.Player2
    else Cell.Empty⟩

/-- State for the C2 counterexample: Player1 to move with one point. -/
def exStateC2 : BoardState :=
  ⟨exBoardC2, 1, 0, Player.Player1, TerminalResult.None⟩

/-- Board with the same adjacent opposite-player pair one column to the
left (column 6), where the source does enumerate the switch. -/
def exBoardC2w : Board :=
  ⟨fun x y =>
    if x = 6 ∧ y = 0 then Cell.Filled Player.Player1
    else if x = 6 ∧ y = 1 then Cell.Filled Player.Player2
    else Cell.Empty⟩

/-- State for the C2 witness: Player1 to move with one point. -/
def exStateC2w : BoardState :=
  ⟨exBoardC2w, 1, 0, Player.Player1, TerminalResult.None⟩

/-- The column of a drop action (used to state that `available_moves` lists
drops in stable column order). -/
def dropColumn : BoardAction → Option ℕ
  | BoardAction.DropStone _ col => some col
  | BoardAction.SwitchStone _ _ => none

/-- Whether a board action is a `SwitchStone`. -/
def isSwitch : BoardAction → Bool
  | BoardAction.SwitchStone _ _ => true
  | BoardAction.DropStone _ _ => false

/-- State for the C3 counterexample: empty board, Player2 to move,
`player_1_points = 1`, `player_2_points = 0`. -/
def exStateC3 : BoardState :=
  ⟨Board.default, 1, 0, Player.Player2, TerminalResult.None⟩

/-- Board `X X O X` on the bottom row (the `switch_stone` test layout of
board.rs). -/
def exBoardC6 : Board :=
  ⟨fun x y =>
    if y = 0 ∧ (x = 0 ∨ x = 1 ∨ x = 3) then Cell.Filled Player.Player1
    else if y = 0 ∧ x = 2 then Cell.Filled Player.Player2
    else Cell.Empty⟩

/-- State for the C6 scenario: Player1 to move holding one point. -/
def exStateC6 : BoardState :=
  ⟨exBoardC6, 1, 0, Player.Player1, TerminalResult.None⟩

/-- Board with an isolated horizontal `Filled Player1` run of exactly 4 on
the bottom row. -/
def exBoardC1 : Board :=
  ⟨fun x y =>
    if y = 0 ∧ x ≤ 3 then Cell.Filled Player.Player1 else Cell.Empty⟩

/-- Board with a horizontal `Filled Player1` run of exactly 5 on the bottom
row. -/
def exBoardC1b : Board :=
  ⟨fun x y =>
    if y = 0 ∧ x ≤ 4 then Cell.Filled Player.Player1 else Cell.Empty⟩

/-- Candidate list for the C8 witness: one drop and one vertical switch,
one visit each. -/
def exMovesC8 : List (BoardAction × ℕ) :=
  [(BoardAction.DropStone Player.Player1 0, 1),
   (BoardAction.SwitchStone ((0 : ℤ), (0 : ℤ)) ((0 : ℤ), (1 : ℤ)), 3)]

/-- A one-ply game result for the C7 witness. -/
def exResultC7 : GameResult :=
  ⟨[(exStateC3, fun _ => 0)], some Player.Player1⟩

/-! ### Helper lemmas -/

theorem get_eq_empty_of_not_contained (b : Board) (c : Coordinate)
    (h : ¬ c.is_contained ((0 : ℤ), (0 : ℤ)) ((WIDTH : ℤ), (HEIGHT : ℤ))) :
    b.get c = Cell.Empty := by
  unfold Board.get
  exact if_neg h

theorem contained_of_get_filled {b : Board} {c : Coordinate} {p : Player}
    (h : b.get c = Cell.Filled p) :
    c.is_contained ((0 : ℤ), (0 : ℤ)) ((WIDTH : ℤ), (HEIGHT : ℤ)) := by
  by_contra hc
  rw [get_eq_empty_of_not_contained b c hc] at h
  exact Cell.noConfusion h

theorem mem_runList_filled {b : Board} {p : Player} {d : ℤ × ℤ} :
    ∀ {fuel : ℕ} {c c' : Coordinate}, c' ∈ runList b p c d fuel →
      b.get c' = Cell.Filled p := by
  intro fuel
  induction fuel with
  | zero => intro c c' h; exact absurd h (List.not_mem_nil c')
  | succ n ih =>
    intro c c' h
    rw [runList] at h
    split at h
    · rcases List.mem_cons.mp h with h | h
      · subst h; assumption
      · exact ih h
    · exact absurd h (List.not_mem_nil c')

theorem get_set_self (b : Board) (v : Cell) (c : Coordinate)
    (hc : c.is_contained ((0 : ℤ), (0 : ℤ)) ((WIDTH : ℤ), (HEIGHT : ℤ))) :
    (b.set v c).get c = v := by
  simp only [Board.get, Board.set]
  rw [if_pos hc]
  simp

theorem get_set_other (b : Board) (v : Cell) (c c' : Coordinate)
    (hc : c.is_contained ((0 : ℤ), (0 : ℤ)) ((WIDTH : ℤ), (HEIGHT : ℤ)))
    (h : c' ≠ c) :
    (b.set v c).get c' = b.get c' := by
  have hcb : (0 ≤ c.1 ∧ c.1 < 8) ∧ (0 ≤ c.2 ∧ c.2 < 8) := hc
  by_cases hc' : c'.is_contained ((0 : ℤ), (0 : ℤ)) ((WIDTH : ℤ), (HEIGHT : ℤ))
  · have hcb' : (0 ≤ c'.1 ∧ c'.1 < 8) ∧ (0 ≤ c'.2 ∧ c'.2 < 8) := hc'
    have hne : ¬ (c'.1.toNat = c.1.toNat ∧ c'.2.toNat = c.2.toNat) := by
      intro hcomp
      exact h (Prod.ext_iff.mpr ⟨by omega, by omega⟩)
    simp only [Board.get, Board.set]
    rw [if_pos hc', if_pos hc']
    simp [hne]
  · rw [get_eq_empty_of_not_contained _ _ hc', get_eq_empty_of_not_contained _ _ hc']

theorem get_set_eq (b : Board) (v : Cell) (c c' : Coordinate)
    (hc : c.is_contained ((0 : ℤ), (0 : ℤ)) ((WIDTH : ℤ), (HEIGHT : ℤ))) :
    (b.set v c).get c' = if c' = c then v else b.get c' := by
  by_cases h : c' = c
  · subst h
    rw [if_pos rfl, get_set_self b v c' hc]
  · rw [if_neg h, get_set_other b v c c' hc h]

theorem getD_map_range {α : Type} (f : ℕ → α) (n x : ℕ) (hx : x < n) (d : α) :
    ((List.range n).map f).getD x d = f x := by
  rw [List.getD_eq_getElem _ _ (by simpa using hx)]
  simp

/-! ### Claim C9: Coordinate arithmetic (code bug in `Coordinate::offset`) -/

/-- C9: the claim says `offset` translates `(x, y)` by `(dx·d, dy·d)` and that
`is_contained` is the componentwise half-open-rectangle test.  The containment
half holds, but `Coordinate::offset` multiplies `offset.0` into BOTH
components: at the concrete input `(0,0).offset((1,2), 1)` the code yields
`(1, 1)` where the claim requires `(1, 2)`. -/
theorem C9_offset_eval :
    Coordinate.offset ((0 : ℤ), (0 : ℤ)) ((1 : ℤ), (2 : ℤ)) 1 = ((1 : ℤ), (1 : ℤ)) ∧
    Coordinate.offset ((0 : ℤ), (0 : ℤ)) ((1 : ℤ), (2 : ℤ)) 1 ≠ ((1 : ℤ), (2 : ℤ)) ∧
    (∀ (c : Coordinate) (a b : ℤ × ℤ), c.is_contained a b ↔
      ((a.1 ≤ c.1 ∧ c.1 < b.1) ∧ (a.2 ≤ c.2 ∧ c.2 < b.2))) :=
  ⟨by decide, by decide, fun _ _ _ => Iff.rfl⟩

/-! ### Claim C10: out-of-rectangle reads return `Empty` -/

/-- C10: `Board::get` returns `Empty` for every coordinate outside
`[0, WIDTH) × [0, HEIGHT)`, and consequently every coordinate visited by a
directional run scan lies inside the rectangle — the scan walks off the edge
only to read `Empty` and stop, never to index out of range. -/
theorem C10_get_outside_empty :
    (∀ (b : Board) (c : Coordinate),
      ¬ c.is_contained ((0 : ℤ), (0 : ℤ)) ((WIDTH : ℤ), (HEIGHT : ℤ)) →
        b.get c = Cell.Empty) ∧
    (∀ (b : Board) (p : Player) (c : Coordinate) (d : ℤ × ℤ) (fuel : ℕ),
      ∀ c' ∈ runList b p c d fuel,
        c'.is_contained ((0 : ℤ), (0 : ℤ)) ((WIDTH : ℤ), (HEIGHT : ℤ))) :=
  ⟨get_eq_empty_of_not_contained,
   fun _ _ _ _ _ _ h => contained_of_get_filled (mem_runList_filled h)⟩

/-- Witness for C10 at a concrete out-of-range coordinate. -/
theorem C10_get_outside_empty_witness :
    Board.default.get ((8 : ℤ), (0 : ℤ)) = Cell.Empty :=
  C10_get_outside_empty.1 Board.default ((8 : ℤ), (0 : ℤ)) (by decide)

/-! ### Claim C3: the state-to-input encoding -/

/-- C3 counterexample: in `exStateC3` the mover is Player2 with 0 points, yet
plane 2 of the encoding holds 1 (= `player_1_points`) — the claim's "plane 2
has every cell equal to the current mover's point count" is false on the
code. -/
theorem C3_counterexample :
    exStateC3.current_player = Player.Player2 ∧
    exStateC3.player_2_points = 0 ∧
    tensor_entry (state_to_input exStateC3) 2 0 0 = 1 :=
  ⟨rfl, rfl, by decide⟩

/-- C3 (amended): the encoding is a 4-plane 8×8 tensor whose plane 0 is the
binary indicator of the mover's stones and plane 1 of the opponent's stones,
but planes 2 and 3 broadcast `player_1_points` and `player_2_points` — each
truncated by the wrapping `as u8` cast, i.e. taken mod 256 — regardless of
which player is to move. -/
theorem C3_state_to_input (s : BoardState) (x y : ℕ) (hx : x < WIDTH) (hy : y < HEIGHT) :
    tensor_entry (state_to_input s) 0 x y =
      (if s.board.get ((x : ℤ), (y : ℤ)) = Cell.Filled s.current_player then 1 else 0) ∧
    tensor_entry (state_to_input s) 1 x y =
      (if s.board.get ((x : ℤ), (y : ℤ)) = Cell.Filled s.current_player.next_player
        then 1 else 0) ∧
    tensor_entry (state_to_input s) 2 x y = s.player_1_points % 256 ∧
    tensor_entry (state_to_input s) 3 x y = s.player_2_points % 256 ∧
    (state_to_input s).length = 4 ∧
    (∀ plane ∈ state_to_input s, plane.length = 8 ∧ ∀ col ∈ plane, col.length = 8) := by
  simp only [state_to_input, tensor_entry, List.getD_cons_zero, List.getD_cons_succ]
  refine ⟨?_, ?_, ?_, ?_, by simp, ?_⟩
  · rw [getD_map_range _ _ _ hx, getD_map_range _ _ _ hy]
    rcases h : s.board.get ((x : ℤ), (y : ℤ)) with _ | p <;> simp [h]
  · rw [getD_map_range _ _ _ hx, getD_map_range _ _ _ hy]
    rcases h : s.board.get ((x : ℤ), (y : ℤ)) with _ | p <;> simp [h]
  · rw [getD_map_range _ _ _ hx, getD_map_range _ _ _ hy]
  · rw [getD_map_range _ _ _ hx, getD_map_range _ _ _ hy]
  · intro plane hplane
    simp only [List.mem_cons, List.not_mem_nil, or_false] at hplane
    rcases hplane with h | h | h | h <;> subst h <;>
      refine ⟨by simp [WIDTH], ?_⟩ <;> intro col hcol <;>
      simp only [List.mem_map] at hcol <;> obtain ⟨a, _, rfl⟩ := hcol <;> simp [HEIGHT]

/-- Witness instantiating C3's amended statement on `exStateC3`. -/
theorem C3_state_to_input_witness :
    tensor_entry (state_to_input exStateC3) 2 0 0 = exStateC3.player_1_points % 256 :=
  (C3_state_to_input exStateC3 0 0 (by decide) (by decide)).2.2.1

/-! ### Claim C7: self-play aggregation -/

/-- C7: for every recorded game the aggregation emits exactly one training
example per recorded ply (inputs, policies and values all have length equal
to the total number of recorded plies), and the value target of the `i`-th
ply of a game is `+1` when that ply's mover equals the eventual winner, `-1`
when it is the other player, and `0` throughout for a winnerless game. -/
theorem C7_aggregation (rs : List GameResult) (r : GameResult) :
    (output_value r).length = r.histories.length ∧
    (∀ (i : ℕ) (hi : i < r.histories.length),
      (output_value r).getD i 0 =
        (match r.winner with
         | none => (0 : ℤ)
         | some w => if (r.histories.get ⟨i, hi⟩).1.current_player = w then 1 else -1)) ∧
    (aggregate_values rs).length = (rs.map fun g => g.histories.length).sum ∧
    (aggregate_inputs rs).length = (rs.map fun g => g.histories.length).sum ∧
    (aggregate_policies rs).length = (rs.map fun g => g.histories.length).sum := by
  refine ⟨by simp [output_value], ?_, ?_, ?_, ?_⟩
  · intro i hi
    obtain ⟨hist, win⟩ := r
    have hlen : i < (output_value ⟨hist, win⟩).length := by
      simpa [output_value] using hi
    rw [List.getD_eq_getElem _ _ hlen]
    unfold output_value
    simp only [List.getElem_map, List.get_eq_getElem]
    rcases win with _ | w
    · rcases hp : hist[i].1.current_player <;> simp [hp]
    · rcases hp : hist[i].1.current_player <;> rcases w <;> simp [hp]
  · have h : (List.length ∘ output_value) = fun g : GameResult => g.histories.length := by
      funext g; simp [output_value]
    rw [aggregate_values, List.length_flatMap, h]
  · have h : (List.length ∘ fun r : GameResult => r.histories.map fun h => state_to_input h.1)
        = fun g : GameResult => g.histories.length := by
      funext g; simp
    rw [aggregate_inputs, List.length_flatMap, h]
  · have h : (List.length ∘ fun r : GameResult => r.histories.map fun h => h.2)
        = fun g : GameResult => g.histories.length := by
      funext g; simp
    rw [aggregate_policies, List.length_flatMap, h]

/-- Witness instantiating C7 on a concrete one-ply game won by Player1 while
Player2 was to move at the recorded ply. -/
theorem C7_aggregation_witness :
    (output_value exResultC7).getD 0 0 = -1 := by
  have h := (C7_aggregation [] exResultC7).2.1 0 (by simp [exResultC7])
  simpa [exResultC7, exStateC3] using h

/-! ### Claim C8: policy round-trip -/

theorem policyFold_cons (T : ℕ) (t : Policy) (hd : BoardAction × ℕ)
    (tl : List (BoardAction × ℕ)) :
    policyFold T t (hd :: tl) =
      policyFold T
        (match move_index hd.1 with
         | some idx => policyWrite t idx ((hd.2 : ℚ) / (T : ℚ))
         | none => t) tl := rfl

theorem policyFold_preserve (T : ℕ) (idx : ℕ × ℕ × ℕ) :
    ∀ (l : List (BoardAction × ℕ)) (t : Policy),
      (∀ mv ∈ l, move_index mv.1 ≠ some idx) → policyFold T t l idx = t idx := by
  intro l
  induction l with
  | nil => intro t _; rfl
  | cons hd tl ih =>
    intro t hne
    rcases hmi : move_index hd.1 with _ | idx2
    · rw [policyFold_cons]
      simp only [hmi]
      exact ih t fun mv hmv => hne mv (List.mem_cons_of_mem hd hmv)
    · rw [policyFold_cons]
      simp only [hmi]
      rw [ih _ fun mv hmv => hne mv (List.mem_cons_of_mem hd hmv)]
      have hne2 : idx ≠ idx2 := by
        intro h
        exact hne hd (List.mem_cons_self hd tl) (h ▸ hmi)
      simp [policyWrite, hne2]

theorem policyFold_get (T : ℕ) :
    ∀ (l : List (BoardAction × ℕ)) (t : Policy),
      (l.map fun mv => move_index mv.1).Nodup →
      ∀ (i : ℕ) (hi : i < l.length) (idx : ℕ × ℕ × ℕ),
        move_index (l.get ⟨i, hi⟩).1 = some idx →
        policyFold T t l idx = ((l.get ⟨i, hi⟩).2 : ℚ) / (T : ℚ) := by
  intro l
  induction l with
  | nil => intro t _ i hi; exact absurd hi (by simp)
  | cons hd tl ih =>
    intro t hnd i hi idx hidx
    have hnd2 := hnd
    rw [List.map_cons, List.nodup_cons] at hnd2
    obtain ⟨hhd, htl⟩ := hnd2
    rcases i with _ | j
    · simp only [List.get] at hidx
      rw [policyFold_cons]
      simp only [hidx]
      rw [policyFold_preserve T idx tl _ ?hpres]
      · simp [policyWrite, List.get]
      case hpres =>
        intro mv hmv h
        apply hhd
        rw [hidx, ← h]
        exact List.mem_map.mpr ⟨mv, hmv, rfl⟩
    · have hj : j < tl.length := by simpa using hi
      rw [policyFold_cons]
      have := ih (match move_index hd.1 with
          | some idx => policyWrite t idx ((hd.2 : ℚ) / (T : ℚ))
          | none => t) htl j hj idx (by simpa [List.get] using hidx)
      simpa [List.get] using this

/-- C8: converting a candidate list with per-move visit counts to a policy
tensor and reading it back for the same candidates reproduces every move's
probability `visits / total` exactly (probabilities are modelled as exact
rationals); a zero total is the fatal (`panic!`) case, modelled as `none`.
The round trip is stated for candidate lists whose moves all have the shapes
produced by move generation and whose tensor indices are pairwise distinct,
as holds for the per-decision-point candidate list of the search root. -/
theorem C8_policy_roundtrip (moves : List (BoardAction × ℕ)) :
    (visitsTotal moves = 0 → moves_to_tensorflow moves = none) ∧
    (∀ policy, moves_to_tensorflow moves = some policy →
      (moves.map fun mv => move_index mv.1).Nodup →
      (∀ mv ∈ moves, (move_index mv.1).isSome) →
      (moves_to_evaluation (moves.map Prod.fst) policy).length = moves.length ∧
      ∀ (i : ℕ) (hi : i < moves.length),
        (moves_to_evaluation (moves.map Prod.fst) policy).getD i 0 =
          ((moves.get ⟨i, hi⟩).2 : ℚ) / (visitsTotal moves : ℚ)) := by
  constructor
  · intro h
    simp [moves_to_tensorflow, h]
  · intro policy hpol hnd hsome
    have hT : ¬ visitsTotal moves = 0 := by
      intro h
      rw [moves_to_tensorflow, if_pos h] at hpol
      exact Option.noConfusion hpol
    have hpol2 : policy = policyFold (visitsTotal moves) (fun _ => 0) moves := by
      rw [moves_to_tensorflow, if_neg hT] at hpol
      exact (Option.some.injEq _ _ ▸ hpol).symm
    refine ⟨by simp [moves_to_evaluation], ?_⟩
    intro i hi
    have hlen : i < (moves_to_evaluation (moves.map Prod.fst) policy).length := by
      simpa [moves_to_evaluation] using hi
    rw [List.getD_eq_getElem _ _ hlen]
    unfold moves_to_evaluation
    simp only [List.getElem_map]
    rcases hmi : move_index moves[i].1 with _ | idx
    · exfalso
      have hmem : moves[i] ∈ moves := List.getElem_mem hi
      have hs := hsome moves[i] hmem
      rw [hmi] at hs
      exact Bool.noConfusion hs
    · rw [hpol2]
      exact policyFold_get (visitsTotal moves) moves (fun _ => 0) hnd i hi idx
        (by simpa [List.get] using hmi)

/-- Witness instantiating C8 on a concrete two-candidate list with visit
counts 1 and 3: the switch's probability reads back as 3/4. -/
theorem C8_policy_roundtrip_witness :
    (moves_to_evaluation (exMovesC8.map Prod.fst)
      (policyFold (visitsTotal exMovesC8) (fun _ => 0) exMovesC8)).getD 1 0 = 3 / 4 := by
  have h := ((C8_policy_roundtrip exMovesC8).2
    (policyFold (visitsTotal exMovesC8) (fun _ => 0) exMovesC8) rfl
    (by decide) (by decide)).2 1 (by decide)
  rw [h]
  norm_num [exMovesC8, visitsTotal, List.get]

/-! ### Claim C2: available moves -/

theorem switchable_iff (b : Board) (base next : Coordinate) :
    switchable b base next = true ↔ oppFilled b base next := by
  rcases h1 : b.get next with _ | p1 <;> rcases h2 : b.get base with _ | p2 <;>
    first
      | (unfold switchable oppFilled; rw [h1, h2]; decide)
      | (cases p1 <;> (unfold switchable oppFilled; rw [h1, h2]; decide))
      | (cases p2 <;> (unfold switchable oppFilled; rw [h1, h2]; decide))
      | (cases p1 <;> cases p2 <;> (unfold switchable oppFilled; rw [h1, h2]; decide))

theorem mem_switchList (b : Board) (d : ℤ × ℤ) (a : BoardAction) :
    a ∈ switchList b d ↔
      ∃ x : ℕ, x < WIDTH - 1 ∧ ∃ y : ℕ, y < HEIGHT ∧
        switchable b ((x : ℤ), (y : ℤ)) (((x : ℤ), (y : ℤ)) + d) = true ∧
        a = BoardAction.SwitchStone ((x : ℤ), (y : ℤ)) (((x : ℤ), (y : ℤ)) + d) := by
  unfold switchList
  simp only [List.mem_flatMap, List.mem_filterMap, List.mem_range,
    Option.ite_none_right_eq_some, Option.some.injEq]
  constructor
  · rintro ⟨x, hx, y, hy, hsw, rfl⟩
    exact ⟨x, hx, y, hy, hsw, rfl⟩
  · rintro ⟨x, hx, y, hy, hsw, rfl⟩
    exact ⟨x, hx, y, hy, hsw, rfl⟩

theorem mem_dropActions (s : BoardState) (a : BoardAction) :
    a ∈ dropActions s ↔ ∃ col : ℕ, col < WIDTH ∧ s.board.is_col_free col ∧
      a = BoardAction.DropStone s.current_player col := by
  unfold dropActions
  simp only [List.mem_map, List.mem_filter, List.mem_range, decide_eq_true_eq]
  constructor
  · rintro ⟨col, ⟨hlt, hfree⟩, rfl⟩
    exact ⟨col, hlt, hfree, rfl⟩
  · rintro ⟨col, hlt, hfree, rfl⟩
    exact ⟨col, ⟨hlt, hfree⟩, rfl⟩

theorem nodup_dropActions (s : BoardState) : (dropActions s).Nodup := by
  unfold dropActions
  refine List.Nodup.map ?_ (List.Nodup.filter _ (List.nodup_range _))
  intro c1 c2 h
  simpa using h

theorem nodup_switchList (b : Board) (d : ℤ × ℤ) : (switchList b d).Nodup := by
  unfold switchList
  rw [List.nodup_flatMap]
  constructor
  · intro x _
    refine List.Nodup.filterMap ?_ (List.nodup_range _)
    intro y y' act hy hy'
    simp only [Option.mem_def, Option.ite_none_right_eq_some, Option.some.injEq] at hy hy'
    obtain ⟨_, rfl⟩ := hy
    obtain ⟨_, h⟩ := hy'
    simp only [BoardAction.SwitchStone.injEq, Prod.mk.injEq] at h
    omega
  · refine List.Pairwise.imp ?_ (List.nodup_range _)
    intro x x' hne
    intro act hmem hmem'
    simp only [List.mem_filterMap, List.mem_range, Option.ite_none_right_eq_some,
      Option.some.injEq] at hmem hmem'
    obtain ⟨y, hy, _, rfl⟩ := hmem
    obtain ⟨y', hy', _, h⟩ := hmem'
    simp only [BoardAction.SwitchStone.injEq, Prod.mk.injEq] at h
    exact hne (by omega)

theorem find_switch_actions_eq (s : BoardState) :
    (match s.current_player with
     | Player.Player1 => decide (s.player_1_points > 0)
     | Player.Player2 => decide (s.player_2_points > 0)) =
      decide (0 < s.mover_points) := by
  rcases hc : s.current_player <;> simp [BoardState.mover_points, hc]

theorem available_moves_terminal (s : BoardState)
    (h : s.board.get_board_terminal_status ≠ TerminalResult.None) :
    s.available_moves = [] := by
  rcases hs : s.board.get_board_terminal_status with _ | p
  · exact absurd hs h
  · unfold BoardState.available_moves
    rw [hs]
  · unfold BoardState.available_moves
    rw [hs]

theorem available_moves_none (s : BoardState)
    (h : s.board.get_board_terminal_status = TerminalResult.None) :
    s.available_moves =
      if (match s.current_player with
          | Player.Player1 => decide (s.player_1_points > 0)
          | Player.Player2 => decide (s.player_2_points > 0)) then
        dropActions s ++ switchList s.board (1, 0) ++ switchList s.board (0, 1)
      else dropActions s := by
  unfold BoardState.available_moves
  rw [h]

/-- C2 counterexample: in `exStateC2` the board is non-terminal, the mover
has a point, and the cells (7,0) and (7,1) are a four-connected same-column
adjacent pair filled by different players, yet neither orientation of the
corresponding `SwitchStone` is returned by `available_moves` — the source's
vertical-switch loop stops at column `WIDTH-2`, so the claim as stated is
false. -/
theorem C2_counterexample :
    exStateC2.board.get_board_terminal_status = TerminalResult.None ∧
    0 < exStateC2.mover_points ∧
    exStateC2.board.get ((7 : ℤ), (0 : ℤ)) = Cell.Filled Player.Player1 ∧
    exStateC2.board.get ((7 : ℤ), (1 : ℤ)) = Cell.Filled Player.Player2 ∧
    BoardAction.SwitchStone ((7 : ℤ), (0 : ℤ)) ((7 : ℤ), (1 : ℤ)) ∉
      exStateC2.available_moves ∧
    BoardAction.SwitchStone ((7 : ℤ), (1 : ℤ)) ((7 : ℤ), (0 : ℤ)) ∉
      exStateC2.available_moves := by
  refine ⟨by decide, by decide, by decide, by decide, by decide, by decide⟩

/-- C2 (amended): for a terminal board `available_moves` is empty; otherwise
it holds exactly one `DropStone` for the mover per non-full column, listed in
stable column order, and — exactly when the mover's points are positive — one
`SwitchStone` for every same-row adjacent pair `(x,y)-(x+1,y)` with `x <
WIDTH-1` and every same-column adjacent pair `(x,y)-(x,y+1)` with `x <
WIDTH-1` whose two cells are filled by different players; same-column pairs
in the last column (`x = WIDTH-1`) are omitted by the source and are
excluded here, which is the only divergence from the original claim. -/
theorem C2_available_moves (s : BoardState) :
    (s.board.get_board_terminal_status ≠ TerminalResult.None →
      s.available_moves = []) ∧
    (s.board.get_board_terminal_status = TerminalResult.None →
      ∀ a : BoardAction, a ∈ s.available_moves ↔
        ((∃ col : ℕ, col < WIDTH ∧ s.board.is_col_free col ∧
            a = BoardAction.DropStone s.current_player col) ∨
         (0 < s.mover_points ∧ ∃ x : ℕ, x < WIDTH - 1 ∧ ∃ y : ℕ, y < HEIGHT ∧
            oppFilled s.board ((x : ℤ), (y : ℤ)) ((x : ℤ) + 1, (y : ℤ)) ∧
            a = BoardAction.SwitchStone ((x : ℤ), (y : ℤ)) ((x : ℤ) + 1, (y : ℤ))) ∨
         (0 < s.mover_points ∧ ∃ x : ℕ, x < WIDTH - 1 ∧ ∃ y : ℕ, y < HEIGHT ∧
            oppFilled s.board ((x : ℤ), (y : ℤ)) ((x : ℤ), (y : ℤ) + 1) ∧
            a = BoardAction.SwitchStone ((x : ℤ), (y : ℤ)) ((x : ℤ), (y : ℤ) + 1)))) ∧
    (s.board.get_board_terminal_status = TerminalResult.None →
      s.available_moves.filterMap dropColumn =
        (List.range WIDTH).filter fun col => decide (s.board.is_col_free col)) ∧
    s.available_moves.Nodup := by
  have hdropcols : (dropActions s).filterMap dropColumn =
      (List.range WIDTH).filter fun col => decide (s.board.is_col_free col) := by
    unfold dropActions
    rw [List.filterMap_map]
    have h : (dropColumn ∘ fun col => BoardAction.DropStone s.current_player col) =
        (some : ℕ → Option ℕ) := by
      funext col
      rfl
    rw [h, List.filterMap_some]
  have hswitchcols : ∀ d : ℤ × ℤ, (switchList s.board d).filterMap dropColumn = [] := by
    intro d
    rw [List.filterMap_eq_nil_iff]
    intro a ha
    obtain ⟨x, _, y, _, _, rfl⟩ := (mem_switchList s.board d a).mp ha
    rfl
  refine ⟨available_moves_terminal s, ?_, ?_, ?_⟩
  · intro h0 a
    rw [available_moves_none s h0, find_switch_actions_eq s]
    by_cases hpts : 0 < s.mover_points
    · rw [if_pos (by simpa using hpts)]
      simp only [List.mem_append, mem_dropActions, mem_switchList]
      constructor
      · rintro ((h | h) | h)
        · exact Or.inl h
        · obtain ⟨x, hx, y, hy, hsw, rfl⟩ := h
          refine Or.inr (Or.inl ⟨hpts, x, hx, y, hy, ?_, ?_⟩)
          · have h2 := (switchable_iff _ _ _).mp hsw
            simpa [Prod.mk_add_mk] using h2
          · simp [Prod.mk_add_mk]
        · obtain ⟨x, hx, y, hy, hsw, rfl⟩ := h
          refine Or.inr (Or.inr ⟨hpts, x, hx, y, hy, ?_, ?_⟩)
          · have h2 := (switchable_iff _ _ _).mp hsw
            simpa [Prod.mk_add_mk] using h2
          · simp [Prod.mk_add_mk]
      · rintro (h | ⟨hp, x, hx, y, hy, hopp, rfl⟩ | ⟨hp, x, hx, y, hy, hopp, rfl⟩)
        · exact Or.inl (Or.inl h)
        · refine Or.inl (Or.inr ⟨x, hx, y, hy, ?_, ?_⟩)
          · apply (switchable_iff _ _ _).mpr
            simpa [Prod.mk_add_mk] using hopp
          · simp [Prod.mk_add_mk]
        · refine Or.inr ⟨x, hx, y, hy, ?_, ?_⟩
          · apply (switchable_iff _ _ _).mpr
            simpa [Prod.mk_add_mk] using hopp
          · simp [Prod.mk_add_mk]
    · rw [if_neg (by simpa using hpts)]
      simp only [mem_dropActions]
      constructor
      · intro h
        exact Or.inl h
      · rintro (h | ⟨hp, _⟩ | ⟨hp, _⟩)
        · exact h
        · exact absurd hp hpts
        · exact absurd hp hpts
  · intro h0
    rw [available_moves_none s h0]
    by_cases hif : (match s.current_player with
        | Player.Player1 => decide (s.player_1_points > 0)
        | Player.Player2 => decide (s.player_2_points > 0)) = true
    · rw [if_pos hif, List.filterMap_append, List.filterMap_append, hdropcols,
        hswitchcols, hswitchcols, List.append_nil, List.append_nil]
    · rw [if_neg hif, hdropcols]
  · rcases hs : s.board.get_board_terminal_status with _ | p
    · rw [available_moves_none s hs]
      split
      · refine List.Nodup.append (List.Nodup.append (nodup_dropActions s)
          (nodup_switchList _ _) ?_) (nodup_switchList _ _) ?_
        · rw [List.disjoint_left]
          intro a ha ha'
          obtain ⟨col, _, _, rfl⟩ := (mem_dropActions s a).mp ha
          obtain ⟨x, _, y, _, _, h⟩ := (mem_switchList _ _ _).mp ha'
          exact BoardAction.noConfusion h
        · rw [List.disjoint_left]
          intro a ha ha'
          rcases List.mem_append.mp ha with ha | ha
          · obtain ⟨col, _, _, rfl⟩ := (mem_dropActions s a).mp ha
            obtain ⟨x, _, y, _, _, h⟩ := (mem_switchList _ _ _).mp ha'
            exact BoardAction.noConfusion h
          · obtain ⟨x, _, y, _, _, rfl⟩ := (mem_switchList _ _ _).mp ha
            obtain ⟨x', _, y', _, _, h⟩ := (mem_switchList _ _ _).mp ha'
            simp only [Prod.mk_add_mk, BoardAction.SwitchStone.injEq,
              Prod.mk.injEq] at h
            omega
      · exact nodup_dropActions s
    · rw [available_moves_terminal s (by simp [hs])]
      exact List.nodup_nil
    · rw [available_moves_terminal s (by simp [hs])]
      exact List.nodup_nil

/-- Witness instantiating C2's amended statement: the same opposite-player
vertical pair placed in column 6 is enumerated. -/
theorem C2_available_moves_witness :
    BoardAction.SwitchStone ((6 : ℤ), (0 : ℤ)) ((6 : ℤ), (1 : ℤ)) ∈
      exStateC2w.available_moves := by
  have h := (C2_available_moves exStateC2w).2.1 (by decide)
    (BoardAction.SwitchStone ((6 : ℤ), (0 : ℤ)) ((6 : ℤ), (1 : ℤ)))
  apply h.mpr
  refine Or.inr (Or.inr ⟨by decide, 6, by decide, 0, by decide, ?_, by decide⟩)
  exact ⟨Player.Player1, Player.Player2, by decide, by decide, by decide⟩

/-! ### Claim C1: terminal-status detection -/

theorem runList_length_le (b : Board) (p : Player) (d : ℤ × ℤ) :
    ∀ (fuel : ℕ) (c : Coordinate), (runList b p c d fuel).length ≤ fuel := by
  intro fuel
  induction fuel with
  | zero => intro c; simp [runList]
  | succ n ih =>
    intro c
    rw [runList]
    split
    · simpa using ih (c + d)
    · simp

theorem runList_getElem (b : Board) (p : Player) (d : ℤ × ℤ) :
    ∀ (fuel k : ℕ) (c : Coordinate) (hk : k < (runList b p c d fuel).length),
      (runList b p c d fuel)[k] = c + ((k : ℤ) * d.1, (k : ℤ) * d.2) := by
  intro fuel
  induction fuel with
  | zero => intro k c hk; simp [runList] at hk
  | succ n ih =>
    intro k c hk
    by_cases h : b.get c = Cell.Filled p
    · simp only [runList, if_pos h] at hk ⊢
      rcases k with _ | j
      · simp only [List.getElem_cons_zero]
        simp
      · simp only [List.getElem_cons_succ]
        have hj : j < (runList b p (c + d) d n).length := by simpa using hk
        rw [ih j (c + d) hj]
        refine Prod.ext_iff.mpr ⟨?_, ?_⟩ <;>
          simp only [Prod.fst_add, Prod.snd_add] <;> push_cast <;> ring
    · simp only [runList, if_neg h] at hk
      simp at hk

theorem runList_fuel_eq (b : Board) (p : Player) (d : ℤ × ℤ) :
    ∀ (f1 : ℕ) (c : Coordinate) (f2 : ℕ), f1 ≤ f2 →
      (runList b p c d f1).length < f1 →
      runList b p c d f2 = runList b p c d f1 := by
  intro f1
  induction f1 with
  | zero => intro c f2 _ h; simp at h
  | succ n ih =>
    intro c f2 hle hlen
    obtain ⟨m, rfl⟩ : ∃ m, f2 = m + 1 := ⟨f2 - 1, by omega⟩
    by_cases h : b.get c = Cell.Filled p
    · simp only [runList, if_pos h] at hlen ⊢
      rw [ih (c + d) m (by omega) (by simpa using hlen)]
    · simp only [runList, if_neg h]

/-- Any direction used by the scanning code moves one of the two components
by ±1 each step, so a same-player run read with fuel 9 has at most 8 cells:
its cells are all on the board and their moving component takes pairwise
distinct values inside `[0, 8)`. -/
theorem runList_nine_le_eight (b : Board) (p : Player) (c : Coordinate) (d : ℤ × ℤ)
    (hd : d.1 = 1 ∨ d.1 = -1 ∨ d.2 = 1 ∨ d.2 = -1) :
    (runList b p c d 9).length ≤ 8 := by
  by_contra hgt
  push_neg at hgt
  have hle := runList_length_le b p d 9 c
  have h0 : (0 : ℕ) < (runList b p c d 9).length := by omega
  have h8 : (8 : ℕ) < (runList b p c d 9).length := by omega
  have e0 := runList_getElem b p d 9 0 c h0
  have e8 := runList_getElem b p d 9 8 c h8
  have f0 := mem_runList_filled (List.getElem_mem h0)
  have f8 := mem_runList_filled (List.getElem_mem h8)
  have c0 := contained_of_get_filled f0
  have c8 := contained_of_get_filled f8
  rw [e0] at c0
  rw [e8] at c8
  have c0n : (0 ≤ c.1 + (0 : ℤ) * d.1 ∧ c.1 + (0 : ℤ) * d.1 < 8) ∧
      (0 ≤ c.2 + (0 : ℤ) * d.2 ∧ c.2 + (0 : ℤ) * d.2 < 8) := c0
  have c8n : (0 ≤ c.1 + (8 : ℤ) * d.1 ∧ c.1 + (8 : ℤ) * d.1 < 8) ∧
      (0 ≤ c.2 + (8 : ℤ) * d.2 ∧ c.2 + (8 : ℤ) * d.2 < 8) := c8
  rcases hd with h | h | h | h <;> rw [h] at c0n c8n <;> omega

theorem dir_len_zero_iff (b : Board) (p : Player) (c : Coordinate) (d : ℤ × ℤ) :
    (directional_stone_len b p c d).length = 0 ↔ b.get c ≠ Cell.Filled p := by
  unfold directional_stone_len RUN_FUEL
  by_cases h : b.get c = Cell.Filled p <;> simp [runList, h]

theorem dir_len_succ (b : Board) (p : Player) (c : Coordinate) (d : ℤ × ℤ)
    (hd : d.1 = 1 ∨ d.1 = -1 ∨ d.2 = 1 ∨ d.2 = -1)
    (h : b.get c = Cell.Filled p) :
    (directional_stone_len b p c d).length =
      (directional_stone_len b p (c + d) d).length + 1 := by
  unfold directional_stone_len RUN_FUEL
  have h9 : runList b p c d 9 = c :: runList b p (c + d) d 8 := by
    simp [runList, h]
  have hlen : (runList b p (c + d) d 8).length < 8 := by
    have hb := runList_nine_le_eight b p c d hd
    rw [h9] at hb
    simp at hb
    omega
  rw [h9, runList_fuel_eq b p d 8 (c + d) 9 (by omega) hlen]
  simp

theorem dir_len_filled_of_pos (b : Board) (p : Player) (c : Coordinate) (d : ℤ × ℤ)
    (h : 0 < (directional_stone_len b p c d).length) : b.get c = Cell.Filled p := by
  by_contra hn
  have := (dir_len_zero_iff b p c d).mpr hn
  omega

theorem dirs4_axis {d : ℤ × ℤ} (hd : d ∈ dirs4) :
    d.1 = 1 ∨ d.1 = -1 ∨ d.2 = 1 ∨ d.2 = -1 := by
  simp only [dirs4, List.mem_cons, List.not_mem_nil, or_false] at hd
  rcases hd with rfl | rfl | rfl | rfl <;> simp

theorem dir_len_shift (b : Board) (p : Player) (c : Coordinate) (d : ℤ × ℤ)
    (hd : d.1 = 1 ∨ d.1 = -1 ∨ d.2 = 1 ∨ d.2 = -1) :
    ∀ k : ℕ, k ≤ (directional_stone_len b p c d).length →
      (directional_stone_len b p (c + ((k : ℤ) * d.1, (k : ℤ) * d.2)) d).length =
        (directional_stone_len b p c d).length - k := by
  intro k
  induction k with
  | zero =>
    intro _
    simp
  | succ n ih =>
    intro hk
    have hn : n ≤ (directional_stone_len b p c d).length := by omega
    have hlenn := ih hn
    have hnlt : n < (directional_stone_len b p c d).length := by omega
    have hfill : b.get (c + ((n : ℤ) * d.1, (n : ℤ) * d.2)) = Cell.Filled p := by
      have hm := mem_runList_filled (List.getElem_mem
        (show n < (runList b p c d RUN_FUEL).length from hnlt))
      rwa [runList_getElem b p d RUN_FUEL n c hnlt] at hm
    have hsucc := dir_len_succ b p (c + ((n : ℤ) * d.1, (n : ℤ) * d.2)) d hd hfill
    have hco : c + ((n : ℤ) * d.1, (n : ℤ) * d.2) + d =
        c + (((n + 1 : ℕ) : ℤ) * d.1, ((n + 1 : ℕ) : ℤ) * d.2) := by
      refine Prod.ext_iff.mpr ⟨?_, ?_⟩ <;>
        simp only [Prod.fst_add, Prod.snd_add] <;> push_cast <;> ring
    rw [hco] at hsucc
    omega

theorem mem_coordList (c : Coordinate) :
    c ∈ coordList ↔ c.is_contained ((0 : ℤ), (0 : ℤ)) ((WIDTH : ℤ), (HEIGHT : ℤ)) := by
  unfold coordList
  simp only [List.mem_flatMap, List.mem_map, List.mem_range]
  constructor
  · rintro ⟨y, hy, x, hx, rfl⟩
    have hx8 : x < 8 := by simpa [WIDTH] using hx
    have hy8 : y < 8 := by simpa [HEIGHT] using hy
    exact (⟨⟨by omega, by omega⟩, ⟨by omega, by omega⟩⟩ :
      ((0 : ℤ) ≤ (x : ℤ) ∧ (x : ℤ) < ((WIDTH : ℕ) : ℤ)) ∧
      ((0 : ℤ) ≤ (y : ℤ) ∧ (y : ℤ) < ((HEIGHT : ℕ) : ℤ)))
  · intro hc
    have h : (0 ≤ c.1 ∧ c.1 < 8) ∧ (0 ≤ c.2 ∧ c.2 < 8) := hc
    refine ⟨c.2.toNat, (by omega : c.2.toNat < 8), c.1.toNat, (by omega : c.1.toNat < 8), ?_⟩
    refine Prod.ext_iff.mpr ⟨?_, ?_⟩
    · show ((c.1.toNat : ℕ) : ℤ) = c.1
      omega
    · show ((c.2.toNat : ℕ) : ℤ) = c.2
      omega

theorem is_four_iff (b : Board) (c : Coordinate) (d : ℤ × ℤ) (p : Player) :
    is_four_directional b c d = some p ↔
      b.get c = Cell.Filled p ∧ (directional_stone_len b p c d).length = 4 ∧
      b.get (c - d) ≠ Cell.Filled p := by
  unfold is_four_directional
  rcases h : b.get c with _ | q
  · simp [h]
  · simp only [h]
    split_ifs with hcond
    · obtain ⟨hf, hbk⟩ := hcond
      constructor
      · intro hqp
        have hqp2 : q = p := by simpa using hqp
        subst hqp2
        exact ⟨rfl, hf, ((dir_len_zero_iff b q (c - d) (-d.1, -d.2)).mp hbk)⟩
      · rintro ⟨hfp, _, _⟩
        have hqp : q = p := by simpa using hfp
        simp [hqp]
    · simp only [false_iff, not_and]
      rintro hfp h4
      have hqp : q = p := by simpa using hfp
      subst hqp
      intro hbk
      exact hcond ⟨h4, (dir_len_zero_iff b q (c - d) (-d.1, -d.2)).mpr hbk⟩

theorem fourCount_pos (b : Board) (c : Coordinate) (d : ℤ × ℤ) (p : Player)
    (hd : d ∈ dirs4) (h4 : (directional_stone_len b p c d).length = 4)
    (hb : b.get (c - d) ≠ Cell.Filled p) : 0 < fourCount b p := by
  have hfill : b.get c = Cell.Filled p :=
    dir_len_filled_of_pos b p c d (by omega)
  have hf : is_four_directional b c d = some p :=
    (is_four_iff b c d p).mpr ⟨hfill, h4, hb⟩
  have hc : c ∈ coordList := (mem_coordList c).mpr (contained_of_get_filled hfill)
  unfold fourCount
  refine List.countP_pos_iff.mpr ⟨is_four_directional b c d, ?_, by simp [hf]⟩
  exact List.mem_flatMap.mpr ⟨c, hc, List.mem_map.mpr ⟨d, hd, rfl⟩⟩

theorem status_spec (b : Board) :
    (b.get_board_terminal_status = TerminalResult.Draw ↔
      0 < fourCount b Player.Player1 ∧ 0 < fourCount b Player.Player2) ∧
    (b.get_board_terminal_status = TerminalResult.None ↔
      fourCount b Player.Player1 = 0 ∧ fourCount b Player.Player2 = 0) ∧
    (b.get_board_terminal_status = TerminalResult.Win Player.Player1 ↔
      0 < fourCount b Player.Player1 ∧ fourCount b Player.Player2 = 0) ∧
    (b.get_board_terminal_status = TerminalResult.Win Player.Player2 ↔
      fourCount b Player.Player1 = 0 ∧ 0 < fourCount b Player.Player2) := by
  simp only [Board.get_board_terminal_status]
  split_ifs with h1 h2 h3 <;> refine ⟨?_, ?_, ?_, ?_⟩ <;> simp <;> omega

/-- C1: (i) a 4-length start is counted at cell `c` in direction `d` for `p`
exactly when `c` holds `p`, the forward run from `c` has length exactly 4 and
the cell behind `c` is not `p`; (ii) an isolated run of exactly 4 produces a
positive four-count for its player; (iii) a run of length ≥ 5 yields no
4-length start at any of its cells, so it is never flagged; (iv) an isolated
4-run for `p` while the opponent's four-count is zero makes the status
`Win p`; (v) the status is Draw iff both counts are positive, None iff both
are zero, and a win for exactly the player whose count is positive. -/
theorem C1_terminal_status :
    (∀ (b : Board) (c : Coordinate) (d : ℤ × ℤ) (p : Player),
      is_four_directional b c d = some p ↔
        b.get c = Cell.Filled p ∧ (directional_stone_len b p c d).length = 4 ∧
        b.get (c - d) ≠ Cell.Filled p) ∧
    (∀ (b : Board) (c : Coordinate) (d : ℤ × ℤ) (p : Player), d ∈ dirs4 →
      (directional_stone_len b p c d).length = 4 →
      b.get (c - d) ≠ Cell.Filled p → 0 < fourCount b p) ∧
    (∀ (b : Board) (c : Coordinate) (d : ℤ × ℤ) (p : Player), d ∈ dirs4 →
      5 ≤ (directional_stone_len b p c d).length →
      ∀ k < (directional_stone_len b p c d).length,
        is_four_directional b (c + ((k : ℤ) * d.1, (k : ℤ) * d.2)) d ≠ some p) ∧
    (∀ (b : Board) (c : Coordinate) (d : ℤ × ℤ) (p : Player), d ∈ dirs4 →
      (directional_stone_len b p c d).length = 4 →
      b.get (c - d) ≠ Cell.Filled p → fourCount b p.next_player = 0 →
      b.get_board_terminal_status = TerminalResult.Win p) ∧
    (∀ b : Board,
      (b.get_board_terminal_status = TerminalResult.Draw ↔
        0 < fourCount b Player.Player1 ∧ 0 < fourCount b Player.Player2) ∧
      (b.get_board_terminal_status = TerminalResult.None ↔
        fourCount b Player.Player1 = 0 ∧ fourCount b Player.Player2 = 0) ∧
      (b.get_board_terminal_status = TerminalResult.Win Player.Player1 ↔
        0 < fourCount b Player.Player1 ∧ fourCount b Player.Player2 = 0) ∧
      (b.get_board_terminal_status = TerminalResult.Win Player.Player2 ↔
        fourCount b Player.Player1 = 0 ∧ 0 < fourCount b Player.Player2)) := by
  refine ⟨is_four_iff, fourCount_pos, ?_, ?_, status_spec⟩
  · intro b c d p hd h5 k hk heq
    obtain ⟨hfill, h4, hbk⟩ := (is_four_iff b _ d p).mp heq
    have hshift := dir_len_shift b p c d (dirs4_axis hd) k (by omega)
    rw [h4] at hshift
    have hk1 : 1 ≤ k := by omega
    have hk1lt : k - 1 < (directional_stone_len b p c d).length := by omega
    have hprev : b.get (c + (((k - 1 : ℕ) : ℤ) * d.1, ((k - 1 : ℕ) : ℤ) * d.2)) =
        Cell.Filled p := by
      have hm := mem_runList_filled (List.getElem_mem
        (show k - 1 < (runList b p c d RUN_FUEL).length from hk1lt))
      rwa [runList_getElem b p d RUN_FUEL (k - 1) c hk1lt] at hm
    apply hbk
    have hco : c + ((k : ℤ) * d.1, (k : ℤ) * d.2) - d =
        c + (((k - 1 : ℕ) : ℤ) * d.1, ((k - 1 : ℕ) : ℤ) * d.2) := by
      have hcast : ((k - 1 : ℕ) : ℤ) = (k : ℤ) - 1 := by omega
      refine Prod.ext_iff.mpr ⟨?_, ?_⟩ <;>
        simp only [Prod.fst_add, Prod.snd_add, Prod.fst_sub, Prod.snd_sub, hcast] <;> ring
    rw [hco]
    exact hprev
  · intro b c d p hd h4 hbk hop
    have hp := fourCount_pos b c d p hd h4 hbk
    rcases hq : p with _ | _
    · exact (status_spec b).2.2.1.mpr ⟨by rwa [hq] at hp, by
        have := hop
        rw [hq] at this
        simpa [Player.next_player] using this⟩
    · exact (status_spec b).2.2.2.mpr ⟨by
        have := hop
        rw [hq] at this
        simpa [Player.next_player] using this, by rwa [hq] at hp⟩

/-- Witness for C1 on concrete boards: an isolated horizontal 4-run for
Player1 is detected as `Win Player1`, and on a board with a 5-run no cell of
the run is a 4-length start. -/
theorem C1_terminal_status_witness :
    exBoardC1.get_board_terminal_status = TerminalResult.Win Player.Player1 ∧
    is_four_directional exBoardC1b
      (((0 : ℤ), (0 : ℤ)) + ((1 : ℕ) * (1 : ℤ), ((1 : ℕ) : ℤ) * (0 : ℤ))) (1, 0) ≠
      some Player.Player1 := by
  constructor
  · exact C1_terminal_status.2.2.2.1 exBoardC1 ((0 : ℤ), (0 : ℤ)) (1, 0) Player.Player1
      (by decide) (by decide) (by decide) (by decide)
  · exact C1_terminal_status.2.2.1 exBoardC1b ((0 : ℤ), (0 : ℤ)) (1, 0) Player.Player1
      (by decide) (by decide) 1 (by decide)

/-! ### Claim C4: cascade removals and gravity shifts -/

theorem removeLoop_get :
    ∀ (fuel : ℕ) (b : Board) (c : Coordinate),
      c.is_contained ((0 : ℤ), (0 : ℤ)) ((WIDTH : ℤ), (HEIGHT : ℤ)) →
      (8 - c.2).toNat < fuel →
      ∀ c' : Coordinate, (removeLoop b c fuel).get c' =
        if c'.1 = c.1 ∧ c.2 ≤ c'.2 ∧ c'.2 < 8 then
          (if c'.2 = 7 then Cell.Empty else b.get (c'.1, c'.2 + 1))
        else b.get c' := by
  intro fuel
  induction fuel with
  | zero => intro b c hc hf; omega
  | succ n ih =>
    intro b c hc hf c'
    have hcb : (0 ≤ c.1 ∧ c.1 < 8) ∧ (0 ≤ c.2 ∧ c.2 < 8) := hc
    have hpair : c + ((0 : ℤ), (1 : ℤ)) = (c.1, c.2 + 1) := by
      refine Prod.ext_iff.mpr ⟨?_, ?_⟩
      · show c.1 + 0 = c.1
        ring
      · rfl
    simp only [removeLoop]
    rw [if_pos hc]
    by_cases h7 : c.2 = 7
    · have hnc : ¬ (c + ((0 : ℤ), (1 : ℤ))).is_contained ((0 : ℤ), (0 : ℤ))
          ((WIDTH : ℤ), (HEIGHT : ℤ)) := by
        rw [hpair]
        intro hcc
        have hcc2 : (0 ≤ c.1 ∧ c.1 < 8) ∧ (0 ≤ c.2 + 1 ∧ c.2 + 1 < 8) := hcc
        omega
      obtain ⟨m, rfl⟩ : ∃ m, n = m + 1 := ⟨n - 1, by omega⟩
      simp only [removeLoop]
      rw [if_neg hnc]
      have hget8 : b.get (c + ((0 : ℤ), (1 : ℤ))) = Cell.Empty :=
        get_eq_empty_of_not_contained _ _ hnc
      rw [hget8, get_set_eq b Cell.Empty c c' hc]
      by_cases hc' : c' = c
      · subst hc'
        have hC : c'.1 = c'.1 ∧ c'.2 ≤ c'.2 ∧ c'.2 < 8 := ⟨rfl, le_refl _, by omega⟩
        rw [if_pos rfl, if_pos hC, if_pos h7]
      · rw [if_neg hc']
        have hcond : ¬ (c'.1 = c.1 ∧ c.2 ≤ c'.2 ∧ c'.2 < 8) := by
          rintro ⟨h1, h2, h3⟩
          exact hc' (Prod.ext_iff.mpr ⟨h1, by omega⟩)
        rw [if_neg hcond]
    · have hcc1 : (c + ((0 : ℤ), (1 : ℤ))).is_contained ((0 : ℤ), (0 : ℤ))
          ((WIDTH : ℤ), (HEIGHT : ℤ)) := by
        rw [hpair]
        exact (⟨⟨by omega, by omega⟩, by omega, by omega⟩ :
          ((0 : ℤ) ≤ c.1 ∧ c.1 < 8) ∧ ((0 : ℤ) ≤ c.2 + 1 ∧ c.2 + 1 < 8))
      have hmeas : (8 - (c + ((0 : ℤ), (1 : ℤ))).2).toNat < n := by
        show (8 - (c.2 + 1)).toNat < n
        omega
      have hfst : (c + ((0 : ℤ), (1 : ℤ))).1 = c.1 := by
        show c.1 + 0 = c.1
        ring
      have hsnd : (c + ((0 : ℤ), (1 : ℤ))).2 = c.2 + 1 := rfl
      have hv : b.get (c + ((0 : ℤ), (1 : ℤ))) = b.get (c.1, c.2 + 1) := by rw [hpair]
      rw [ih (b.set (b.get (c + ((0 : ℤ), (1 : ℤ)))) c) (c + ((0 : ℤ), (1 : ℤ))) hcc1
        hmeas c', hfst, hsnd]
      by_cases hcol : c'.1 = c.1
      · by_cases hup1 : c.2 + 1 ≤ c'.2
        · by_cases hup2 : c'.2 < 8
          · have hA : c'.1 = c.1 ∧ c.2 + 1 ≤ c'.2 ∧ c'.2 < 8 := ⟨hcol, hup1, hup2⟩
            have hC : c'.1 = c.1 ∧ c.2 ≤ c'.2 ∧ c'.2 < 8 := ⟨hcol, by omega, hup2⟩
            rw [if_pos hA, if_pos hC]
            by_cases hb7 : c'.2 = 7
            · rw [if_pos hb7, if_pos hb7]
            · rw [if_neg hb7, if_neg hb7]
              refine get_set_other _ _ _ _ hc ?_
              intro heq
              have hcomp := Prod.ext_iff.mp heq
              omega
          · have hnA : ¬ (c'.1 = c.1 ∧ c.2 + 1 ≤ c'.2 ∧ c'.2 < 8) :=
              fun h => hup2 h.2.2
            have hnC : ¬ (c'.1 = c.1 ∧ c.2 ≤ c'.2 ∧ c'.2 < 8) :=
              fun h => hup2 h.2.2
            rw [if_neg hnA, if_neg hnC]
            refine get_set_other _ _ _ _ hc ?_
            intro heq
            have hcomp := Prod.ext_iff.mp heq
            omega
        · have hnA : ¬ (c'.1 = c.1 ∧ c.2 + 1 ≤ c'.2 ∧ c'.2 < 8) :=
            fun h => hup1 h.2.1
          rw [if_neg hnA]
          by_cases heqc : c' = c
          · subst heqc
            have hC : c'.1 = c'.1 ∧ c'.2 ≤ c'.2 ∧ c'.2 < 8 := ⟨rfl, le_refl _, by omega⟩
            rw [get_set_self _ _ _ hc, if_pos hC, if_neg h7, hv]
          · rw [get_set_other _ _ _ _ hc heqc]
            have hnC : ¬ (c'.1 = c.1 ∧ c.2 ≤ c'.2 ∧ c'.2 < 8) := by
              rintro ⟨h1, h2, h3⟩
              have hy : c'.2 = c.2 := by omega
              exact heqc (Prod.ext_iff.mpr ⟨h1, hy⟩)
            rw [if_neg hnC]
      · have hnA : ¬ (c'.1 = c.1 ∧ c.2 + 1 ≤ c'.2 ∧ c'.2 < 8) := fun h => hcol h.1
        have hnC : ¬ (c'.1 = c.1 ∧ c.2 ≤ c'.2 ∧ c'.2 < 8) := fun h => hcol h.1
        rw [if_neg hnA, if_neg hnC]
        refine get_set_other _ _ _ _ hc ?_
        intro heq
        exact hcol (Prod.ext_iff.mp heq).1

/-- The column-shift semantics of `Board::remove_stone`: removing an
in-rectangle cell `c` leaves other columns and the cells below `c`
untouched, moves every cell of `c`'s column above `c` down by one, and makes
the topmost cell of that column `Empty`. -/
theorem remove_stone_get (b : Board) (c : Coordinate)
    (hc : c.is_contained ((0 : ℤ), (0 : ℤ)) ((WIDTH : ℤ), (HEIGHT : ℤ)))
    (c' : Coordinate) :
    (b.remove_stone c).get c' =
      if c'.1 = c.1 ∧ c.2 ≤ c'.2 ∧ c'.2 < 8 then
        (if c'.2 = 7 then Cell.Empty else b.get (c'.1, c'.2 + 1))
      else b.get c' := by
  have hcb : (0 ≤ c.1 ∧ c.1 < 8) ∧ (0 ≤ c.2 ∧ c.2 < 8) := hc
  unfold Board.remove_stone RUN_FUEL
  rw [removeLoop_get 9 (b.set Cell.Empty c) c hc (by omega) c']
  by_cases hcond : c'.1 = c.1 ∧ c.2 ≤ c'.2 ∧ c'.2 < 8
  · rw [if_pos hcond, if_pos hcond]
    by_cases hb7 : c'.2 = 7
    · rw [if_pos hb7, if_pos hb7]
    · rw [if_neg hb7, if_neg hb7]
      apply get_set_other
      · exact hc
      · intro heq
        have := Prod.ext_iff.mp heq
        omega
  · rw [if_neg hcond, if_neg hcond]
    apply get_set_other
    · exact hc
    · intro heq
      subst heq
      exact hcond ⟨rfl, le_refl _, by omega⟩

theorem hsInsertAll_nodup : ∀ (cs s : List Coordinate), s.Nodup →
    (hsInsertAll s cs).Nodup := by
  intro cs
  induction cs with
  | nil => intro s h; exact h
  | cons c cs ih =>
    intro s h
    have hstep : (if c ∈ s then s else s ++ [c]).Nodup := by
      split_ifs with hmem
      · exact h
      · rw [List.nodup_append]
        refine ⟨h, List.nodup_singleton c, ?_⟩
        intro a ha hac
        rw [List.mem_singleton] at hac
        subst hac
        exact hmem ha
    exact ih _ hstep

theorem check_direction_nodup (b : Board) (p : Player) (coord : Coordinate)
    (pcs : ℕ × List Coordinate × List Coordinate) (d : ℤ × ℤ)
    (h : pcs.2.1.Nodup) : ((check_direction b p coord pcs d).2.1).Nodup := by
  simp only [check_direction]
  split_ifs with h1 h2
  · exact h
  · exact hsInsertAll_nodup _ _ h
  · exact h

theorem fpStep_nodup (b : Board) (p : Player) (st : FPState) (coord : Coordinate)
    (h : st.coords.Nodup) : ((fpStep b p st coord).coords).Nodup := by
  exact check_direction_nodup _ _ _ _ _
    (check_direction_nodup _ _ _ _ _
      (check_direction_nodup _ _ _ _ _
        (check_direction_nodup _ _ _ _ _ h)))

theorem find_points_nodup (b : Board) (p : Player) : (find_points b p).2.Nodup := by
  have key : ∀ (l : List Coordinate) (st : FPState), st.coords.Nodup →
      (l.foldl (fpStep b p) st).coords.Nodup := by
    intro l
    induction l with
    | nil => intro st h; exact h
    | cons c l ih => intro st h; exact ih _ (fpStep_nodup b p st c h)
  simp only [find_points]
  exact key coordList ⟨0, [], [], [], [], []⟩ List.nodup_nil

theorem hsUnion_nodup (s1 s2 : List Coordinate) (h1 : s1.Nodup) (h2 : s2.Nodup) :
    (hsUnion s1 s2).Nodup := by
  unfold hsUnion
  rw [List.nodup_append]
  refine ⟨h1, List.Nodup.filter _ h2, ?_⟩
  intro a ha haf
  have hnot := (List.mem_filter.mp haf).2
  simp only [decide_eq_true_eq] at hnot
  exact hnot ha

theorem mem_hsUnion (s1 s2 : List Coordinate) (c : Coordinate) :
    c ∈ hsUnion s1 s2 ↔ c ∈ s1 ∨ c ∈ s2 := by
  unfold hsUnion
  simp only [List.mem_append, List.mem_filter, decide_eq_true_eq]
  by_cases h : c ∈ s1 <;> simp [h]

theorem passRemovals_spec (b : Board) :
    (∀ c : Coordinate, c ∈ passRemovals b ↔
      c ∈ (find_points b Player.Player1).2 ∨ c ∈ (find_points b Player.Player2).2) ∧
    (passRemovals b).Pairwise
      (fun c1 c2 => c2.2 < c1.2 ∨ (c1.2 = c2.2 ∧ c1.1 ≤ c2.1)) ∧
    (passRemovals b).Nodup := by
  have hperm := List.perm_insertionSort removeLErel
    (hsUnion (find_points b Player.Player1).2 (find_points b Player.Player2).2)
  refine ⟨?_, ?_, ?_⟩
  · intro c
    unfold passRemovals
    rw [hperm.mem_iff]
    exact mem_hsUnion _ _ c
  · have hs := List.sorted_insertionSort removeLErel
      (hsUnion (find_points b Player.Player1).2 (find_points b Player.Player2).2)
    refine hs.imp ?_
    intro a b h
    simpa only [removeLErel, removeLE, Bool.or_eq_true, Bool.and_eq_true,
      decide_eq_true_eq] using h
  · exact hperm.nodup_iff.mpr
      (hsUnion_nodup _ _ (find_points_nodup b Player.Player1)
        (find_points_nodup b Player.Player2))

theorem cascade_none_eq (b : Board) (acc : List MoveResult) (fuel : ℕ)
    (h : b.get_board_terminal_status = TerminalResult.None) :
    cascade b acc (fuel + 1) =
      if (find_points b Player.Player1).1 = 0 ∧ (find_points b Player.Player2).1 = 0 then
        (acc ++ List.replicate (find_points b Player.Player1).1
            (MoveResult.Three Player.Player1)
          ++ List.replicate (find_points b Player.Player2).1
            (MoveResult.Three Player.Player2),
         (passRemovals b).foldl Board.remove_stone b)
      else
        cascade ((passRemovals b).foldl Board.remove_stone b)
          (acc ++ List.replicate (find_points b Player.Player1).1
              (MoveResult.Three Player.Player1)
            ++ List.replicate (find_points b Player.Player2).1
              (MoveResult.Three Player.Player2))
          fuel := by
  simp only [cascade, h]

/-- C4: in each cascade pass of `Board::make_move` the removal list is
exactly the union of the cells of both players' detected segments, with no
duplicates, ordered by descending row and then ascending column, and the
pass removes precisely those cells (in that order) by folding
`remove_stone`; each individual `remove_stone` shifts every cell above the
removed cell within its column down by one and makes the topmost cell of the
column `Empty`, leaving all other cells unchanged. -/
theorem C4_cascade_removals :
    (∀ b : Board, (∀ c : Coordinate, c ∈ passRemovals b ↔
        c ∈ (find_points b Player.Player1).2 ∨ c ∈ (find_points b Player.Player2).2) ∧
      (passRemovals b).Pairwise
        (fun c1 c2 => c2.2 < c1.2 ∨ (c1.2 = c2.2 ∧ c1.1 ≤ c2.1)) ∧
      (passRemovals b).Nodup) ∧
    (∀ (b : Board) (acc : List MoveResult) (fuel : ℕ),
      b.get_board_terminal_status = TerminalResult.None →
      cascade b acc (fuel + 1) =
        if (find_points b Player.Player1).1 = 0 ∧
            (find_points b Player.Player2).1 = 0 then
          (acc ++ List.replicate (find_points b Player.Player1).1
              (MoveResult.Three Player.Player1)
            ++ List.replicate (find_points b Player.Player2).1
              (MoveResult.Three Player.Player2),
           (passRemovals b).foldl Board.remove_stone b)
        else
          cascade ((passRemovals b).foldl Board.remove_stone b)
            (acc ++ List.replicate (find_points b Player.Player1).1
                (MoveResult.Three Player.Player1)
              ++ List.replicate (find_points b Player.Player2).1
                (MoveResult.Three Player.Player2))
            fuel) ∧
    (∀ (b : Board) (c : Coordinate),
      c.is_contained ((0 : ℤ), (0 : ℤ)) ((WIDTH : ℤ), (HEIGHT : ℤ)) →
      ∀ c' : Coordinate, (b.remove_stone c).get c' =
        if c'.1 = c.1 ∧ c.2 ≤ c'.2 ∧ c'.2 < 8 then
          (if c'.2 = 7 then Cell.Empty else b.get (c'.1, c'.2 + 1))
        else b.get c') :=
  ⟨passRemovals_spec, cascade_none_eq, remove_stone_get⟩

/-- Witness instantiating C4's removal semantics on a concrete board: after
removing the stone at (2,0), cell (2,0) holds what was at (2,1). -/
theorem C4_cascade_removals_witness :
    (exBoardC6.remove_stone ((2 : ℤ), (0 : ℤ))).get ((2 : ℤ), (0 : ℤ)) =
      exBoardC6.get ((2 : ℤ), (1 : ℤ)) := by
  have h := C4_cascade_removals.2.2 exBoardC6 ((2 : ℤ), (0 : ℤ)) (by decide)
    ((2 : ℤ), (0 : ℤ))
  rw [h]
  norm_num

/-! ### Claim C5: the shape of the event sequence -/

theorem cascade_win_eq (b : Board) (acc : List MoveResult) (fuel : ℕ) (p : Player)
    (h : b.get_board_terminal_status = TerminalResult.Win p) :
    cascade b acc (fuel + 1) = (acc ++ [MoveResult.Winner p], b) := by
  simp only [cascade, h]

theorem cascade_draw_eq (b : Board) (acc : List MoveResult) (fuel : ℕ)
    (h : b.get_board_terminal_status = TerminalResult.Draw) :
    cascade b acc (fuel + 1) = (acc ++ [MoveResult.Draw], b) := by
  simp only [cascade, h]

theorem cascade_shape : ∀ (fuel : ℕ) (b : Board) (acc : List MoveResult),
    ∃ (rest : List MoveResult) (b2 : Board),
      cascade b acc fuel = (acc ++ rest, b2) ∧ PassShape rest := by
  intro fuel
  induction fuel with
  | zero => intro b acc; exact ⟨[], b, by simp [cascade], PassShape.nil⟩
  | succ n ih =>
    intro b acc
    rcases h : b.get_board_terminal_status with _ | p
    · by_cases hz : (find_points b Player.Player1).1 = 0 ∧
          (find_points b Player.Player2).1 = 0
      · refine ⟨List.replicate (find_points b Player.Player1).1
            (MoveResult.Three Player.Player1)
          ++ List.replicate (find_points b Player.Player2).1
            (MoveResult.Three Player.Player2) ++ [],
          (passRemovals b).foldl Board.remove_stone b, ?_,
          PassShape.pass _ _ _ PassShape.nil⟩
        rw [cascade_none_eq b acc n h, if_pos hz]
        simp
      · obtain ⟨rest, b2, heq, hshape⟩ := ih ((passRemovals b).foldl Board.remove_stone b)
          (acc ++ List.replicate (find_points b Player.Player1).1
              (MoveResult.Three Player.Player1)
            ++ List.replicate (find_points b Player.Player2).1
              (MoveResult.Three Player.Player2))
        refine ⟨List.replicate (find_points b Player.Player1).1
            (MoveResult.Three Player.Player1)
          ++ List.replicate (find_points b Player.Player2).1
            (MoveResult.Three Player.Player2) ++ rest, b2, ?_,
          PassShape.pass _ _ _ hshape⟩
        rw [cascade_none_eq b acc n h, if_neg hz, heq]
        simp
    · exact ⟨[MoveResult.Winner p], b, cascade_win_eq b acc n p h, PassShape.winner p⟩
    · exact ⟨[MoveResult.Draw], b, cascade_draw_eq b acc n h, PassShape.draw⟩

theorem passShape_decomp {l : List MoveResult} (h : PassShape l) :
    ∃ threes term, l = threes ++ term ∧
      (∀ e ∈ threes, isTerminalEv e = false) ∧
      (term = [] ∨ ∃ e, isTerminalEv e = true ∧ term = [e]) := by
  induction h with
  | nil => exact ⟨[], [], rfl, by simp, Or.inl rfl⟩
  | winner p =>
    exact ⟨[], [MoveResult.Winner p], by simp, by simp,
      Or.inr ⟨MoveResult.Winner p, rfl, rfl⟩⟩
  | draw => exact ⟨[], [MoveResult.Draw], by simp, by simp,
      Or.inr ⟨MoveResult.Draw, rfl, rfl⟩⟩
  | pass a bb rest hrest ih =>
    obtain ⟨threes, term, rfl, hth, hterm⟩ := ih
    refine ⟨List.replicate a (MoveResult.Three Player.Player1)
        ++ List.replicate bb (MoveResult.Three Player.Player2) ++ threes, term,
      by simp, ?_, hterm⟩
    intro e he
    rcases List.mem_append.mp he with he | he
    · rcases List.mem_append.mp he with he | he <;>
        · have hrep := List.eq_of_mem_replicate he
          subst hrep
          rfl
    · exact hth e he

theorem passShape_countP {l : List MoveResult} (h : PassShape l) :
    l.countP isTerminalEv ≤ 1 := by
  obtain ⟨threes, term, rfl, hth, hterm⟩ := passShape_decomp h
  rw [List.countP_append]
  have h1 : threes.countP isTerminalEv = 0 := by
    rw [List.countP_eq_zero]
    intro e he
    simp [hth e he]
  rcases hterm with rfl | ⟨e, hev, rfl⟩
  · simp [h1]
  · simp [h1, List.countP_cons, hev]

theorem passShape_last {l : List MoveResult} (h : PassShape l) :
    ∀ (i : ℕ) (hi : i < l.length),
      isTerminalEv (l.get ⟨i, hi⟩) = true → i + 1 = l.length := by
  obtain ⟨threes, term, rfl, hth, hterm⟩ := passShape_decomp h
  intro i hi hev
  by_cases hlt : i < threes.length
  · exfalso
    have hgi : (threes ++ term).get ⟨i, hi⟩ = threes.get ⟨i, hlt⟩ := by
      simp [List.get_eq_getElem, List.getElem_append, hlt]
    rw [hgi] at hev
    have hmem := List.get_mem threes i hlt
    rw [hth _ hmem] at hev
    exact Bool.noConfusion hev
  · rcases hterm with rfl | ⟨e, _, rfl⟩
    · simp at hi
      omega
    · have hlen : (threes ++ [e]).length = threes.length + 1 := by simp
      omega

/-- C5: the event sequence returned by `Board::make_move` is a sequence of
scoring passes — each pass all of its `Three(Player1)` events followed by all
of its `Three(Player2)` events, one per segment count of `find_points` —
optionally ended by a single terminal event; hence it has at most one
terminal event, a terminal event can only be the last element, and a
terminal status detected at the start of a pass returns at once with the
terminal event appended and no further scoring. -/
theorem C5_event_sequence :
    (∀ (b : Board) (m : BoardAction), PassShape (b.make_move m).1) ∧
    (∀ (b : Board) (m : BoardAction),
      (b.make_move m).1.countP isTerminalEv ≤ 1) ∧
    (∀ (b : Board) (m : BoardAction) (i : ℕ) (hi : i < (b.make_move m).1.length),
      isTerminalEv ((b.make_move m).1.get ⟨i, hi⟩) = true →
      i + 1 = (b.make_move m).1.length) ∧
    (∀ (b : Board) (acc : List MoveResult) (fuel : ℕ) (p : Player),
      b.get_board_terminal_status = TerminalResult.Win p →
      cascade b acc (fuel + 1) = (acc ++ [MoveResult.Winner p], b)) ∧
    (∀ (b : Board) (acc : List MoveResult) (fuel : ℕ),
      b.get_board_terminal_status = TerminalResult.Draw →
      cascade b acc (fuel + 1) = (acc ++ [MoveResult.Draw], b)) ∧
    (∀ (b : Board) (acc : List MoveResult) (fuel : ℕ),
      b.get_board_terminal_status = TerminalResult.None →
      cascade b acc (fuel + 1) =
        if (find_points b Player.Player1).1 = 0 ∧
            (find_points b Player.Player2).1 = 0 then
          (acc ++ List.replicate (find_points b Player.Player1).1
              (MoveResult.Three Player.Player1)
            ++ List.replicate (find_points b Player.Player2).1
              (MoveResult.Three Player.Player2),
           (passRemovals b).foldl Board.remove_stone b)
        else
          cascade ((passRemovals b).foldl Board.remove_stone b)
            (acc ++ List.replicate (find_points b Player.Player1).1
                (MoveResult.Three Player.Player1)
              ++ List.replicate (find_points b Player.Player2).1
                (MoveResult.Three Player.Player2))
            fuel) := by
  have hshape : ∀ (b : Board) (m : BoardAction), PassShape (b.make_move m).1 := by
    intro b m
    obtain ⟨rest, b2, heq, hs⟩ := cascade_shape CASCADE_FUEL (applyAction b m) []
    unfold Board.make_move
    rw [heq]
    simpa using hs
  refine ⟨hshape, ?_, ?_, cascade_win_eq, cascade_draw_eq, cascade_none_eq⟩
  · intro b m
    exact passShape_countP (hshape b m)
  · intro b m
    exact passShape_last (hshape b m)

/-- Witness instantiating C5's terminal shortcut: on a board already won by
Player1 the cascade returns the single `Winner` event at once. -/
theorem C5_event_sequence_witness :
    cascade exBoardC1 [] 1 = ([MoveResult.Winner Player.Player1], exBoardC1) := by
  have h := C5_event_sequence.2.2.2.1 exBoardC1 [] 0 Player.Player1 (by decide)
  simpa using h

/-! ### Claim C6: BoardState.make_move bookkeeping -/

/-- C6: for a legal action (a switch requires the mover's counter to be
positive), `BoardState::make_move` spends exactly 1 point of the mover when
the action is a `SwitchStone`, credits each player one point per `Three`
event of the board's returned sequence, advances `current_player` to its
opposite, stores the mutated board and caches as winner the terminal result
of the last returned event (`Win`/`Draw`), or `None` when the sequence ends
without a terminal event. -/
theorem C6_state_make_move (s : BoardState) (m : BoardAction)
    (hpts : isSwitch m = true → 0 < s.mover_points) :
    ((s.make_move m).player_1_points : ℤ) =
      (s.player_1_points : ℤ)
      - (if isSwitch m = true ∧ s.current_player = Player.Player1 then 1 else 0)
      + ((s.board.make_move m).1.count (MoveResult.Three Player.Player1) : ℤ) ∧
    ((s.make_move m).player_2_points : ℤ) =
      (s.player_2_points : ℤ)
      - (if isSwitch m = true ∧ s.current_player = Player.Player2 then 1 else 0)
      + ((s.board.make_move m).1.count (MoveResult.Three Player.Player2) : ℤ) ∧
    (s.make_move m).current_player = s.current_player.next_player ∧
    (s.make_move m).board = (s.board.make_move m).2 ∧
    (s.make_move m).winner =
      (match (s.board.make_move m).1.getLast? with
       | some MoveResult.Draw => TerminalResult.Draw
       | some (MoveResult.Winner p) => TerminalResult.Win p
       | _ => TerminalResult.None) := by
  rcases m with ⟨pm, col⟩ | ⟨ca, cb⟩
  · refine ⟨?_, ?_, rfl, rfl, rfl⟩
    · simp only [BoardState.make_move, isSwitch]
      simp
    · simp only [BoardState.make_move, isSwitch]
      simp
  · have hp := hpts rfl
    refine ⟨?_, ?_, rfl, rfl, rfl⟩
    · rcases hcur : s.current_player with _ | _
      · have hp1 : 0 < s.player_1_points := by
          simpa [BoardState.mover_points, hcur] using hp
        simp only [BoardState.make_move, isSwitch, hcur]
        simp
        omega
      · simp only [BoardState.make_move, isSwitch, hcur]
        simp
    · rcases hcur : s.current_player with _ | _
      · simp only [BoardState.make_move, isSwitch, hcur]
        simp
      · have hp2 : 0 < s.player_2_points := by
          simpa [BoardState.mover_points, hcur] using hp
        simp only [BoardState.make_move, isSwitch, hcur]
        simp
        omega

/-- Witness instantiating C6 on the `switch_stone` scenario of the source's
tests: from `X X O X` on the bottom row, Player1 (holding one point) switches
(2,0) and (3,0), the board reports exactly one `Three(Player1)` event, and
the mover's points end where they started (spend 1, gain 1). -/
theorem C6_state_make_move_witness :
    (exStateC6.board.make_move
      (BoardAction.SwitchStone ((2 : ℤ), (0 : ℤ)) ((3 : ℤ), (0 : ℤ)))).1 =
      [MoveResult.Three Player.Player1] ∧
    exStateC6.player_1_points = 1 ∧
    (exStateC6.make_move
      (BoardAction.SwitchStone ((2 : ℤ), (0 : ℤ)) ((3 : ℤ), (0 : ℤ)))).player_1_points = 1 := by
  have hev : (exStateC6.board.make_move
      (BoardAction.SwitchStone ((2 : ℤ), (0 : ℤ)) ((3 : ℤ), (0 : ℤ)))).1 =
      [MoveResult.Three Player.Player1] := by decide
  refine ⟨hev, rfl, ?_⟩
  have h := (C6_state_make_move exStateC6
    (BoardAction.SwitchStone ((2 : ℤ), (0 : ℤ)) ((3 : ℤ), (0 : ℤ)))
    (fun _ => by decide)).1
  rw [hev, if_pos ⟨rfl, rfl⟩] at h
  norm_num at h
  exact_mod_cast h

end M3C4
